/-
Verification of the fs-manager resource tree model (src/fs_manager/fs_manager.py)
against its natural-language specification.

The Python source is shallowly embedded in Lean:
- strings stay strings, POSIX permission bits and file contents become Nat,
  absolute filesystem paths become lists of path segments where convenient;
- the in-memory object graph (FileObject / DirectoryObject /
  AliasedDirectoryObject / FSManager) becomes explicit immutable state that
  every operation threads through;
- operations that can raise Python exceptions return Except;
- recursive operations whose recursion is driven by mutable navigation state
  in the source (cd / up around a recursive call) are embedded either
  structurally on the visited subtree or with an explicit fuel parameter, so
  that every definition is executable and kernel-reducible.

Sections:
1. Path resolution (FSManager.abspath, lines 692-702) over strings.
2. DirectoryObject container semantics (append / insert / index / remove /
   the parent property setter, lines 227-453).
3. The FSManager model: tree of aliased directories, navigation, mkfile /
   mkdir, sidecar persistence, full snapshot save_all / load_all, hashsum
   save / check, and the snappy importer.
-/
import Mathlib

set_option maxRecDepth 8192
set_option linter.unusedVariables false

namespace FsSpec

/-! ## Section 1: path resolution (`FSManager.abspath`)

`abspath` (fs_manager.py lines 692-702):
```
if path.startswith("/"):
    return os.path.abspath(path)
else:
    return os.path.abspath(os.path.join(self.prefix_path, path))
```
`self.prefix_path` is kept equal to the current directory's absolute path by
`cd` / `up` / `back` / `cd_root`, and is absolute from construction
(`os.path.abspath(base_path)`).  For an absolute argument `p`,
`os.path.abspath p = posixpath.normpath p`, so `abspath` reduces to
normalization of the input or of the join with the current path. -/

/-- The path separator, as a string. -/
def slashStr : String := "/"

/-- Python `path.startswith("/")`, which on POSIX is also `os.path.isabs`:
the first character is a slash. -/
def isAbsStr (s : String) : Bool := s.data.head? = some '/'

/-- Split a path string on slashes, like `posixpath.normpath` does via
`path.split(sep)`. -/
def pySplit (s : String) : List String := s.splitOn slashStr

/-- One step of `posixpath.normpath`'s component walk, specialized to
absolute paths: empty and `.` components are dropped, `..` pops the last
accumulated component (at the root, `..` collapses away), and any other
component is kept. -/
def normStep (acc : List String) (comp : String) : List String :=
  if comp = "" ∨ comp = "." then acc
  else if comp = ".." then acc.dropLast
  else acc ++ [comp]

/-- The component normalization of `posixpath.normpath` for absolute paths. -/
def normSegs (comps : List String) : List String := comps.foldl normStep []

/-- Reassemble an absolute path from normalized components
(`"/" + sep.join(comps)`; the POSIX double-leading-slash corner case is not
modelled). -/
def renderAbs (segs : List String) : String :=
  slashStr ++ String.intercalate slashStr segs

/-- `posixpath.normpath` restricted to absolute inputs, which is also
`os.path.abspath` on absolute inputs. -/
def normpathAbs (s : String) : String := renderAbs (normSegs (pySplit s))

/-- `posixpath.join a b` for two components: an absolute `b` replaces `a`;
otherwise `b` is attached after a slash (no extra slash if `a` already ends
with one or is empty). -/
def pyJoin (a b : String) : String :=
  if isAbsStr b then b
  else if a.data.getLast? = some '/' ∨ a = "" then a ++ b
  else a ++ slashStr ++ b

/-- `FSManager.abspath` (lines 692-702), with `curPath` standing for
`self.prefix_path`, the absolute path of the current container. -/
def fsmAbspath (curPath : String) (p : String) : String :=
  if isAbsStr p then normpathAbs p else normpathAbs (pyJoin curPath p)

theorem renderAbs_isAbs (l : List String) : isAbsStr (renderAbs l) = true := by
  unfold renderAbs isAbsStr slashStr
  cases h : String.intercalate "/" l with
  | mk cs => simp [String.append]

theorem normpathAbs_isAbs (s : String) : isAbsStr (normpathAbs s) = true :=
  renderAbs_isAbs _

/-- C8: `abspath` always returns an absolute path; an already-absolute input
is returned normalized; a relative input is the normalized join of the
current container's path (`prefix_path`, which the manager keeps equal to
the current directory's absolute path) with the input. -/
theorem c8_abspath_resolution (curPath p : String)
    (habs : isAbsStr curPath = true) :
    isAbsStr (fsmAbspath curPath p) = true ∧
    (isAbsStr p = true → fsmAbspath curPath p = normpathAbs p) ∧
    (isAbsStr p = false → fsmAbspath curPath p = normpathAbs (pyJoin curPath p)) := by
  refine ⟨?_, ?_, ?_⟩
  · unfold fsmAbspath
    by_cases h : isAbsStr p = true
    · simp [h, normpathAbs_isAbs]
    · simp [h, normpathAbs_isAbs]
  · intro h; simp [fsmAbspath, h]
  · intro h; simp [fsmAbspath, h]

/-- Witness for C8 at a concrete current path and relative input. -/
theorem c8_abspath_resolution_witness :
    isAbsStr "/tmp/fs-manager" = true ∧
    (isAbsStr (fsmAbspath "/tmp/fs-manager" "a/b") = true ∧
      (isAbsStr "a/b" = true → fsmAbspath "/tmp/fs-manager" "a/b" = normpathAbs "a/b") ∧
      (isAbsStr "a/b" = false →
        fsmAbspath "/tmp/fs-manager" "a/b" = normpathAbs (pyJoin "/tmp/fs-manager" "a/b"))) :=
  ⟨by decide, c8_abspath_resolution "/tmp/fs-manager" "a/b" (by decide)⟩

/-! ## Section 2: DirectoryObject container semantics (lines 227-453)

A `DirectoryObject` owns an ordered sequence `resources` of child objects;
each child carries a back-reference `_parent`.  Python object identity is
modelled by a unique `uid` per object (the source defines `__eq__` on path
equality but no `__ne__`, so Python 2's `!=` between these objects compares
identity, which `uid` inequality models exactly).  The children of one
container are modelled as records; only the shape relevant to the container
operations (variant, path, back-reference) is kept. -/

/-- A child resource as seen by its container: `FileObject` when `isFile`,
otherwise `DirectoryObject`.  `par` is the `_parent` back-reference (the uid
of the owning container, or none). -/
structure RNode where
  uid : Nat
  isFile : Bool
  path : String
  par : Option Nat
deriving DecidableEq, Repr

/-- A `DirectoryObject`: its own uid, absolute path, `_parent`
back-reference and the ordered `resources` sequence. -/
structure DirObj where
  uid : Nat
  path : String
  par : Option Nat
  resources : List RNode
deriving DecidableEq, Repr

/-- Python `el == resource` between resource objects: `FileObject.__eq__`
and `DirectoryObject.__eq__` both require the other object to be an instance
of the same base class and the paths to be equal (lines 60-61, 280-281). -/
def pyEqR (a b : RNode) : Bool := a.isFile = b.isFile ∧ a.path = b.path

/-- `DirectoryObject.index(resource=None, path=None)` (lines 440-445): first
index whose element compares equal to `resource` or whose path equals
`path`; `None` when absent (Python falls off the loop). -/
def dirIndex (d : DirObj) (resource : Option RNode) (path : Option String) :
    Option Nat :=
  d.resources.findIdx?
    (fun el => (match resource with
                | some r => pyEqR el r
                | none => false)
      || (match path with
          | some q => q = el.path
          | none => false))

/-- `DirectoryObject.append(resource)` (lines 422-429).  The source guard is
`isinstance(resource, FileObject) or isinstance(resource, DirectoryObject)
and self.index(resource) is None`: by Python operator precedence the
duplicate check binds only to the `DirectoryObject` conjunct, so a
`FileObject` is always appended.  On append the child's `_parent` is set to
the container. -/
def dirAppend (d : DirObj) (r : RNode) : DirObj :=
  if r.isFile || (!r.isFile && (dirIndex d (some r) none).isNone) then
    { d with resources := d.resources ++ [{ r with par := some d.uid }] }
  else d

/-- Python `list.insert(i, x)`: a negative index counts from the end
(clamped at 0), an index past the end appends. -/
def pyListInsert (l : List RNode) (i : Int) (x : RNode) : List RNode :=
  let j : Nat := if i < 0 then (l.length - (-i).toNat) else min i.toNat l.length
  l.insertIdx j x

/-- `DirectoryObject.insert(index, resource)` (lines 431-438), with the same
precedence slip in the guard as `append`. -/
def dirInsert (d : DirObj) (i : Int) (r : RNode) : DirObj :=
  if r.isFile || (!r.isFile && (dirIndex d (some r) none).isNone) then
    { d with resources := pyListInsert d.resources i { r with par := some d.uid } }
  else d

/-- The `parent` property setter on a child (lines 105-109 / 325-329):
`if isinstance(value, DirectoryObject) and value != self._parent`.  A `None`
value fails the isinstance check, so the assignment is silently dropped; the
identity comparison `value != self._parent` is uid inequality.  The second
component reports whether the body ran (which in the source also triggers
`self.parent.append(self)` on the new parent). -/
def parentAssign (r : RNode) (v : Option Nat) : RNode × Bool :=
  match v with
  | none => (r, false)
  | some u => if r.par ≠ some u then ({ r with par := some u }, true) else (r, false)

/-- `DirectoryObject.remove()` (lines 352-362): `shutil.rmtree` deletes the
subtree on disk (out of scope here), `unparent` detaches the directory from
its own parent, and then `el.parent = None` is assigned to every child —
which goes through the `parent` property setter and is therefore a no-op on
each child's `_parent`. -/
def dirRemove (d : DirObj) : DirObj :=
  { d with par := none,
           resources := d.resources.map (fun el => (parentAssign el none).1) }

/-! ### C3: duplicate-path guard in append / insert -/

/-- A container already holding a file at path `/d/f`, and a second file
object with the same path. -/
def c3Dir : DirObj :=
  { uid := 0, path := "/d", par := none,
    resources := [{ uid := 1, isFile := true, path := "/d/f", par := some 0 }] }

/-- The duplicate: a distinct `FileObject` bound to the same path. -/
def c3Dup : RNode := { uid := 2, isFile := true, path := "/d/f", par := none }

/-- Counterexample to C3 as stated: a node with the same path is already
present in the sequence (`index` finds it), yet `append` is not a no-op —
the file is appended again and the sequence grows, because the precedence of
the guard lets any `FileObject` through. -/
theorem c3_counterexample :
    (dirIndex c3Dir (some c3Dup) none).isSome = true ∧
    (dirAppend c3Dir c3Dup).resources.length = 2 ∧
    (dirInsert c3Dir 0 c3Dup).resources.length = 2 := by
  decide

/-- C3 (amended): `append(node)` / `insert(index, node)` add the node to the
sequence and set its back-reference to the container; the same-path guard
applies only to directory nodes — a directory whose path already occurs in
the sequence is silently skipped and the sequence is unchanged, while a file
node is added unconditionally, even when a same-path node is present. -/
theorem c3_append_insert_amended (d : DirObj) (r : RNode) (i : Int) :
    (r.isFile = true →
      (dirAppend d r).resources = d.resources ++ [{ r with par := some d.uid }] ∧
      (dirInsert d i r).resources
        = pyListInsert d.resources i { r with par := some d.uid }) ∧
    (r.isFile = false → (dirIndex d (some r) none).isSome = true →
      dirAppend d r = d ∧ dirInsert d i r = d) ∧
    (r.isFile = false → dirIndex d (some r) none = none →
      (dirAppend d r).resources = d.resources ++ [{ r with par := some d.uid }] ∧
      (dirInsert d i r).resources
        = pyListInsert d.resources i { r with par := some d.uid }) := by
  refine ⟨?_, ?_, ?_⟩
  · intro hf
    constructor
    · simp [dirAppend, hf]
    · simp [dirInsert, hf]
  · intro hf hidx
    rw [Option.isSome_iff_exists] at hidx
    obtain ⟨j, hj⟩ := hidx
    constructor
    · simp [dirAppend, hf, hj]
    · simp [dirInsert, hf, hj]
  · intro hf hidx
    constructor
    · simp [dirAppend, hf, hidx]
    · simp [dirInsert, hf, hidx]

/-- Witness for the amended C3 at concrete inputs (file case on `c3Dir`,
duplicate-directory case on a container holding a same-path directory). -/
theorem c3_append_insert_amended_witness :
    (c3Dup.isFile = true ∧
      ((dirAppend c3Dir c3Dup).resources
          = c3Dir.resources ++ [{ c3Dup with par := some c3Dir.uid }] ∧
        (dirInsert c3Dir 0 c3Dup).resources
          = pyListInsert c3Dir.resources 0 { c3Dup with par := some c3Dir.uid })) := by
  refine ⟨by decide, (c3_append_insert_amended c3Dir c3Dup 0).1 (by decide)⟩

/-! ### C4: orphaning after directory removal -/

/-- A directory with one in-memory child file whose back-reference points at
the directory. -/
def c4Dir : DirObj :=
  { uid := 5, path := "/d", par := none,
    resources := [{ uid := 6, isFile := true, path := "/d/f", par := some 5 }] }

/-- C4 evaluated at the failing input: after `remove()`, the remaining
in-memory child still reports the removed directory as its parent — the
`el.parent = None` assignments in `remove` go through the `parent` property
setter, whose `isinstance(value, DirectoryObject)` guard rejects `None`, so
no child is ever orphaned (the claim and the spec say every remaining child
reports no parent). -/
theorem c4_remove_orphan_code_bug :
    (dirRemove c4Dir).resources.map RNode.par = [some 5] ∧
    ¬ (∀ el ∈ (dirRemove c4Dir).resources, el.par = none) := by
  decide

/-! ## Section 3: the FSManager model (lines 456-1063)

Absolute filesystem paths are embedded as lists of path segments (the
source manipulates them as slash-separated strings through `os.path` and
regexes; on the canonical slash-free segments used by the manager the two
views coincide — Section 1 models the string-level `abspath` itself).
Permission bits, and file contents together with their digests, are Nat;
the digest of a content is the content itself, modelling a collision-free
streaming digest service (the spec treats MD5/SHA-1 as an external
collaborator producing distinct digests for distinct byte streams).

The manager state holds the in-memory tree of `AliasedDirectoryObject`s
(each with its ordered `resources` sequence and `aliases` dict), the
navigation state (`current_directory` and `pred` as alias chains from the
root — faithful because every container's `_parent` back-reference points
at its enclosing container in all states the manager constructs), a fresh
uid counter standing for Python object identity, and the disk. -/

/-- An absolute filesystem path as segments from the filesystem root. -/
abbrev FPath := List String

/-- A regular file on disk: path, permission bits, content. -/
structure DFile where
  path : FPath
  fmode : Nat
  content : Nat
deriving DecidableEq, Repr

/-- A directory on disk: path and permission bits. -/
structure DDir where
  path : FPath
  dmode : Nat
deriving DecidableEq, Repr

/-- One entry of a `.fs-structure.json` sidecar: the persisted shape is
`path relative to root, mode, temporary, type, optional md5 / sha1`
(lines 859-878, 1004-1030). -/
structure SEntry where
  relp : FPath
  mode : Nat
  temp : Bool
  isFile : Bool
  md5 : Option Nat
  sha1 : Option Nat
deriving DecidableEq, Repr

/-- A sidecar file: alias-keyed entries, in insertion order (Python dict
iteration order is arbitrary; one fixed order is modelled). -/
abbrev Sidecar := List (String × SEntry)

/-- The disk: directories, regular files, and the per-directory
`.fs-structure.json` sidecars (keyed by the containing directory's path;
they live outside the walked file list, matching the claims' premise of an
otherwise unchanged tree). -/
structure Disk where
  ddirs : List DDir
  dfiles : List DFile
  sidecars : List (FPath × Sidecar)
deriving DecidableEq, Repr

def Disk.dirExists (dk : Disk) (p : FPath) : Bool :=
  dk.ddirs.any (fun d => d.path = p)

def Disk.fileExists (dk : Disk) (p : FPath) : Bool :=
  dk.dfiles.any (fun f => f.path = p)

/-- `os.path.exists`. -/
def Disk.pathExists (dk : Disk) (p : FPath) : Bool :=
  dk.dirExists p || dk.fileExists p

/-- `os.stat(p).st_mode & 0o777`. -/
def Disk.modeOf (dk : Disk) (p : FPath) : Option Nat :=
  match dk.dfiles.find? (fun f => f.path = p) with
  | some f => some f.fmode
  | none => (dk.ddirs.find? (fun d => d.path = p)).map DDir.dmode

/-- The bytes of the file at `p`, as read by the `md5`/`sha1` streaming
loop (lines 200-224). -/
def Disk.contentOf (dk : Disk) (p : FPath) : Option Nat :=
  (dk.dfiles.find? (fun f => f.path = p)).map DFile.content

/-- `os.mkdir`, as used by `DirectoryObject.create`: no-op here when the
path exists (`create` checks existence first). -/
def Disk.addDir (dk : Disk) (p : FPath) (m : Nat) : Disk :=
  if dk.dirExists p then dk else { dk with ddirs := dk.ddirs ++ [⟨p, m⟩] }

/-- Creation of an empty file (`open(path, "w")` + `chmod`), as used by
`FileObject.create`; the empty content is 0. -/
def Disk.addFile (dk : Disk) (p : FPath) (m : Nat) : Disk :=
  if dk.fileExists p then dk else { dk with dfiles := dk.dfiles ++ [⟨p, m, 0⟩] }

/-- Overwrite the bytes of an existing file (the external mutation in the
drift-detection scenario). -/
def Disk.setContent (dk : Disk) (p : FPath) (c : Nat) : Disk :=
  { dk with dfiles := dk.dfiles.map (fun f => if f.path = p then { f with content := c } else f) }

/-- The sidecar of the directory at `p`, when that `.fs-structure.json`
exists. -/
def Disk.sidecarAt (dk : Disk) (p : FPath) : Option Sidecar :=
  (dk.sidecars.find? (fun kv => kv.1 = p)).map Prod.snd

/-- Write (create or replace) the sidecar of the directory at `p`. -/
def Disk.sidecarWrite (dk : Disk) (p : FPath) (sc : Sidecar) : Disk :=
  if dk.sidecars.any (fun kv => kv.1 = p) then
    { dk with sidecars := dk.sidecars.map (fun kv => if kv.1 = p then (kv.1, sc) else kv) }
  else { dk with sidecars := dk.sidecars ++ [(p, sc)] }

/-- An in-memory resource node: `FileObject`, or `AliasedDirectoryObject`
with its ordered `resources` sequence and `aliases` dict (alias to index
into the sequence).  `uid` stands for Python object identity; `mode` is
kept in sync with the disk entry (the `mode` property re-reads `os.stat`,
and creation/adoption establish exactly this value). -/
inductive Node where
  | file (uid : Nat) (path : FPath) (mode : Nat) (temp : Bool) : Node
  | dir (uid : Nat) (path : FPath) (mode : Nat) (temp : Bool)
        (res : List Node) (als : List (String × Nat)) : Node
deriving Repr

def Node.isFile : Node → Bool
  | .file .. => true
  | .dir .. => false

def Node.path : Node → FPath
  | .file _ p _ _ => p
  | .dir _ p _ _ _ _ => p

def Node.uid : Node → Nat
  | .file u _ _ _ => u
  | .dir u _ _ _ _ _ => u

def Node.mode : Node → Nat
  | .file _ _ m _ => m
  | .dir _ _ m _ _ _ => m

def Node.temp : Node → Bool
  | .file _ _ _ t => t
  | .dir _ _ _ t _ _ => t

def Node.resOf : Node → List Node
  | .file .. => []
  | .dir _ _ _ _ r _ => r

def Node.alsOf : Node → List (String × Nat)
  | .file .. => []
  | .dir _ _ _ _ _ a => a

/-- Python `el == other` between resource objects (path equality within the
same variant; `FileObject.__eq__` and the directory `__eq__`s check
`isinstance` first). -/
def pyEqN (a b : Node) : Bool := a.isFile = b.isFile && a.path = b.path

/-- Python `list.index`-style first match by `==`, as `Option`
(`DirectoryObject.index` returns `None` when absent; `list.index` raises,
which never happens in the flows modelled because the element was just
appended or matched). -/
def pyIndexOf (res : List Node) (r : Node) : Option Nat :=
  res.findIdx? (fun el => pyEqN el r)

/-- Python truthiness of a resource object: a `FileObject` is truthy; an
`AliasedDirectoryObject` defines `__len__` as the number of aliases, so an
alias-empty directory is falsy. -/
def truthy : Node → Bool
  | .file .. => true
  | .dir _ _ _ _ _ als => !als.isEmpty

/-- `AliasedDirectoryObject.__getitem__` composed with alias lookup:
`self.resources[self.aliases[key]]` (out-of-range indexes, which would
raise, yield none). -/
def lookupAlias (res : List Node) (als : List (String × Nat)) (a : String) :
    Option Node :=
  match als.find? (fun kv => kv.1 = a) with
  | some kv => res.get? kv.2
  | none => none

/-- Python dict assignment `aliases[key] = i`: replace the value of an
existing key, else add the key. -/
def dictSet (als : List (String × Nat)) (a : String) (i : Nat) :
    List (String × Nat) :=
  if als.any (fun kv => kv.1 = a) then
    als.map (fun kv => if kv.1 = a then (kv.1, i) else kv)
  else als ++ [(a, i)]

/-- `DirectoryObject.append` at the manager level (lines 422-429), the same
guard as `dirAppend` in Section 2: a `FileObject` is always appended (the
precedence slip), a directory only when no `==`-equal node is present.  The
appended child's `_parent` back-reference (tracked in Section 2) is the
container. -/
def appendNode (d : Node) (r : Node) : Node :=
  match d with
  | Node.dir u p m t res als =>
      if r.isFile || (!r.isFile && (pyIndexOf res r).isNone) then
        Node.dir u p m t (res ++ [r]) als
      else d
  | _ => d

/-- `AliasedDirectoryObject.__setitem__`: `aliases[key] =
resources.index(value)` — the alias is bound to the index of the first
`==`-equal element of the sequence (lines 466-467). -/
def bindAlias (d : Node) (a : String) (r : Node) : Node :=
  match d with
  | Node.dir u p m t res als =>
      match pyIndexOf res r with
      | some i => Node.dir u p m t res (dictSet als a i)
      | none => d
  | _ => d

/-- Resolve an alias chain from a node (the container reached by successive
`cd`s). -/
def nodeAt : List String → Node → Option Node
  | [], n => some n
  | a :: rest, Node.dir _ _ _ _ res als =>
      match lookupAlias res als a with
      | some c => nodeAt rest c
      | none => none
  | _ :: _, Node.file .. => none

/-- Apply `f` to the container at the end of an alias chain, in place. -/
def updateAt : List String → (Node → Node) → Node → Node
  | [], f, n => f n
  | a :: rest, f, Node.dir u p m t res als =>
      (match als.find? (fun kv => kv.1 = a) with
       | some kv =>
           match res.get? kv.2 with
           | some c => Node.dir u p m t (res.set kv.2 (updateAt rest f c)) als
           | none => Node.dir u p m t res als
       | none => Node.dir u p m t res als)
  | _ :: _, _, n => n

/-- The `FSManager` state: the root container tree, `current_directory` and
`pred` as alias chains from the root, the fresh-uid counter, the fixed root
path (`root_directory.path`, also the prefix at construction), the
manager-level `temporary` flag, and the disk.  `prefix_path` is not stored
separately: `cd`/`up`/`back`/`cd_root` keep it equal to the current
container's absolute path, which `curPath` computes. -/
structure MState where
  tree : Node
  cur : List String
  pred : List String
  nextUid : Nat
  rootPath : FPath
  temporary : Bool
  disk : Disk

/-- The current container object. -/
def MState.curNode (m : MState) : Option Node := nodeAt m.cur m.tree

/-- `self.prefix_path`: the current container's absolute path. -/
def MState.curPath (m : MState) : FPath :=
  match m.curNode with
  | some n => n.path
  | none => m.rootPath

/-- `FSManager.resource(alias)` (lines 561-575): the aliased node of the
current container, if bound (the stale-path warning is log-only). -/
def resourceLookup (m : MState) (a : String) : Option Node :=
  match m.curNode with
  | some (Node.dir _ _ _ _ res als) => lookupAlias res als a
  | _ => none

/-- `FSManager.dir(alias)` (lines 594-609): as `resource`, but only when the
node is a directory. -/
def dirLookup (m : MState) (a : String) : Option Node :=
  match resourceLookup m a with
  | some n => if n.isFile then none else some n
  | none => none

/-- `FSManager.file(alias)` (lines 577-592). -/
def fileLookup (m : MState) (a : String) : Option Node :=
  match resourceLookup m a with
  | some n => if n.isFile then some n else none
  | none => none

/-- `FSManager.cd(alias)` (lines 611-624): on success `pred` receives the
current container and `current`/`prefix_path` move to the alias; otherwise
a log-only no-op. -/
def cd (a : String) (m : MState) : MState :=
  match dirLookup m a with
  | some _ => { m with pred := m.cur, cur := m.cur ++ [a] }
  | none => m

/-- `FSManager.up()` (lines 626-632): `if self.current_directory.parent:`
— the parent back-reference of the current container, whose truthiness is
its alias count; the root's parent is `None`.  On success `pred` receives
the current container and `current` moves to the parent (the enclosing
container, since back-references are consistent in manager-built states). -/
def up (m : MState) : MState :=
  match m.cur with
  | [] => m
  | _ =>
    match nodeAt m.cur.dropLast m.tree with
    | some p => if truthy p then { m with pred := m.cur, cur := m.cur.dropLast } else m
    | none => m

/-- `FSManager.back()` (lines 634-638): `current`/`prefix_path` are restored
from the single `pred` slot; `pred` itself is not modified. -/
def back (m : MState) : MState := { m with cur := m.pred }

/-- `FSManager.cd_root()` (lines 640-644); `pred` is not modified. -/
def cdRoot (m : MState) : MState := { m with cur := [] }

/-- `FSManager._prepare(path)` (lines 544-559): create the row of parent
directories (`os.makedirs` on the dirname) when missing; intermediate
directories get the `makedirs` default mode 0o777. -/
def osMakedirs (dk : Disk) (p : FPath) : Disk :=
  (List.range p.length).foldl (fun d i => d.addDir (p.take (i + 1)) 511) dk

def prepare (dk : Disk) (absp : FPath) : Disk :=
  let pre := absp.dropLast
  if dk.pathExists pre then dk else osMakedirs dk pre

/-- `FileObject.__init__` (lines 29-54): adopt an existing disk entry (its
mode is read back from `os.stat`) or create a fresh empty file with the
requested mode. -/
def fileObjectMake (uid : Nat) (absp : FPath) (mode : Nat) (temp : Bool)
    (dk : Disk) : Node × Disk :=
  if dk.pathExists absp then
    (Node.file uid absp ((dk.modeOf absp).getD mode) temp, dk)
  else
    (Node.file uid absp mode temp, dk.addFile absp mode)

/-- `AliasedDirectoryObject.__init__` (lines 456-459 with 228-255): adopt an
existing disk entry or create the directory; the container starts with no
resources and no aliases. -/
def dirObjectMake (uid : Nat) (absp : FPath) (mode : Nat) (temp : Bool)
    (dk : Disk) : Node × Disk :=
  if dk.pathExists absp then
    (Node.dir uid absp ((dk.modeOf absp).getD mode) temp [] [], dk)
  else
    (Node.dir uid absp mode temp [] [], dk.addDir absp mode)

/-- `relpathOf p root` is `os.path.relpath(p, root)` for the paths the
manager produces, which always lie under the root. -/
def relpathOf (p root : FPath) : FPath := p.drop root.length

/-- The `(alias, node)` pairs produced by iterating the current container
(`MutableMapping.iteritems` via `__iter__` and `__getitem__`). -/
def itemsOf (res : List Node) (als : List (String × Nat)) :
    List (String × Node) :=
  als.filterMap (fun kv => (res.get? kv.2).map (fun n => (kv.1, n)))

/-- The sidecar entry `save` writes for one aliased node (lines 862-872):
path relative to the root, mode, temporary flag and kind; `save` never
writes hashes. -/
def mkSEntry (root : FPath) (n : Node) : SEntry :=
  { relp := relpathOf n.path root, mode := n.mode, temp := n.temp,
    isFile := n.isFile, md5 := none, sha1 := none }

/-- `FSManager.save()` (lines 859-878): serialize the immediate children of
the current container into its own `.fs-structure.json`. -/
def saveSidecar (m : MState) : Disk :=
  match m.curNode with
  | some (Node.dir _ p _ _ res als) =>
      m.disk.sidecarWrite p
        ((itemsOf res als).map (fun it => (it.1, mkSEntry m.rootPath it.2)))
  | _ => m.disk

/-- The creation branch of `FSManager.mkfile` (lines 732-739): resolve the
absolute path against the current prefix, pre-create parent directories,
build the `FileObject` (whose constructor, via the `parent` keyword,
appends it to the current container), bind the alias to
`resources.index(node)`, and re-save the sidecar unless the manager is
temporary. -/
def mkfileCreate (al : String) (relp : FPath) (mode : Nat) (temp : Bool)
    (m : MState) : MState :=
  let absp := m.curPath ++ relp
  let dk1 := prepare m.disk absp
  let (fn, dk2) := fileObjectMake m.nextUid absp mode temp dk1
  let t1 := updateAt m.cur (fun d => appendNode d fn) m.tree
  let t2 := updateAt m.cur (fun d => bindAlias d al fn) t1
  let m1 := { m with tree := t2, nextUid := m.nextUid + 1, disk := dk2 }
  if m1.temporary then m1 else { m1 with disk := saveSidecar m1 }

/-- `FSManager.mkfile(alias, path, ...)` (lines 704-739) after the
alias/path defaulting (each defaults to the other; call sites here always
determine both).  The guard is `if self.resource(_alias):` — Python
truthiness of the resolved resource, not an `is not None` test — so a bound
alias suppresses creation only when the bound object is truthy. -/
def mkfile (al : String) (relp : FPath) (mode : Nat) (temp : Bool)
    (m : MState) : MState :=
  match resourceLookup m al with
  | some n => if truthy n then m else mkfileCreate al relp mode temp m
  | none => mkfileCreate al relp mode temp m

/-- The creation branch of `FSManager.mkdir` (lines 769-776), parallel to
`mkfileCreate` but building an `AliasedDirectoryObject`. -/
def mkdirCreate (al : String) (relp : FPath) (mode : Nat) (temp : Bool)
    (m : MState) : MState :=
  let absp := m.curPath ++ relp
  let dk1 := prepare m.disk absp
  let (dn, dk2) := dirObjectMake m.nextUid absp mode temp dk1
  let t1 := updateAt m.cur (fun d => appendNode d dn) m.tree
  let t2 := updateAt m.cur (fun d => bindAlias d al dn) t1
  let m1 := { m with tree := t2, nextUid := m.nextUid + 1, disk := dk2 }
  if m1.temporary then m1 else { m1 with disk := saveSidecar m1 }

/-- `FSManager.mkdir(alias, path, ...)` (lines 741-776), with the same
truthiness guard as `mkfile`. -/
def mkdir (al : String) (relp : FPath) (mode : Nat) (temp : Bool)
    (m : MState) : MState :=
  match resourceLookup m al with
  | some n => if truthy n then m else mkdirCreate al relp mode temp m
  | none => mkdirCreate al relp mode temp m

/-! ### C5: single-slot navigation history -/

/-- C5: after two successful `cd`s, one `back()` restores the container that
was current immediately before the second descent (not the root), and a
second `back()` does not walk further up — `back` restores the single
remembered `pred` slot and never modifies it. -/
theorem c5_back_single_slot (m : MState) (a b : String)
    (h1 : (dirLookup m a).isSome = true)
    (h2 : (dirLookup (cd a m) b).isSome = true) :
    (back (cd b (cd a m))).cur = (cd a m).cur ∧
    (back (back (cd b (cd a m)))).cur = (cd a m).cur ∧
    (cd a m).cur = m.cur ++ [a] := by
  rw [Option.isSome_iff_exists] at h1 h2
  obtain ⟨n1, hn1⟩ := h1
  obtain ⟨n2, hn2⟩ := h2
  have e1 : cd a m = { m with pred := m.cur, cur := m.cur ++ [a] } := by
    unfold cd; rw [hn1]
  rw [e1] at hn2
  have e2 : cd b (cd a m)
      = { m with pred := m.cur ++ [a], cur := (m.cur ++ [a]) ++ [b] } := by
    rw [e1]; unfold cd; rw [hn2]
  refine ⟨?_, ?_, ?_⟩
  · rw [e2, e1]; rfl
  · rw [e2, e1]; rfl
  · rw [e1]

/-- A concrete manager whose root holds directory alias `a` which holds
directory alias `b` (paths r/a and r/a/b). -/
def navM : MState :=
  { tree := Node.dir 0 ["r"] 448 false
      [Node.dir 1 ["r", "a"] 448 false
        [Node.dir 2 ["r", "a", "b"] 448 false [] []] [("b", 0)]]
      [("a", 0)],
    cur := [], pred := [], nextUid := 3, rootPath := ["r"],
    temporary := true,
    disk := { ddirs := [⟨["r"], 448⟩, ⟨["r", "a"], 448⟩, ⟨["r", "a", "b"], 448⟩],
              dfiles := [], sidecars := [] } }

/-- Witness for C5 on `navM` with the descents a then b. -/
theorem c5_back_single_slot_witness :
    (dirLookup navM "a").isSome = true ∧
    ((back (cd "b" (cd "a" navM))).cur = (cd "a" navM).cur ∧
      (back (back (cd "b" (cd "a" navM)))).cur = (cd "a" navM).cur ∧
      (cd "a" navM).cur = navM.cur ++ ["a"]) :=
  ⟨by decide, c5_back_single_slot navM "a" "b" (by decide) (by decide)⟩

/-! ### C2: the alias-uniqueness guard -/

/-- A manager whose root container binds alias `a` to an alias-empty
directory (path r/a). -/
def c2M : MState :=
  { tree := Node.dir 0 ["r"] 448 false
      [Node.dir 1 ["r", "a"] 448 false [] []] [("a", 0)],
    cur := [], pred := [], nextUid := 2, rootPath := ["r"],
    temporary := true,
    disk := { ddirs := [⟨["r"], 448⟩, ⟨["r", "a"], 448⟩], dfiles := [],
              sidecars := [] } }

/-- C2 evaluated at the failing input: alias `a` is bound in the current
container (to an alias-empty directory), yet `mkfile("a")` is not a no-op —
the truthiness guard `if self.resource(_alias):` sees a falsy container, a
new `FileObject` is created (adopting the directory's path), the sequence
gains an entry, and the alias is re-bound to the new file node, changing
the kind the alias resolves to. -/
theorem c2_mkfile_alias_code_bug :
    (resourceLookup c2M "a").isSome = true ∧
    (resourceLookup c2M "a").map Node.isFile = some false ∧
    (mkfile "a" ["a"] 384 false c2M).tree.resOf.length = 2 ∧
    (resourceLookup (mkfile "a" ["a"] 384 false c2M) "a").map Node.isFile
      = some true ∧
    c2M.tree.resOf.length = 1 := by
  decide

/-! ### Full snapshot persistence: `save_all` / `load_all` (lines 945-1002) -/

/-- One value of the `.fs-structure-full.json` document: the sidecar entry
shape, with directories carrying a nested `resources` map. -/
inductive SnapVal where
  | fileS (relp : FPath) (mode : Nat) (temp : Bool) : SnapVal
  | dirS (relp : FPath) (mode : Nat) (temp : Bool)
         (resources : List (String × SnapVal)) : SnapVal
deriving Repr

/-- The recursive `decompose` of `save_all` (lines 956-968): for each alias
of the current container record path-relative-to-root, mode and temporary
flag; for directories descend (`cd` / recurse / `up`, embedded as structural
descent into the child container) and build the nested `resources` map.
Fuel bounds the recursion depth; any fuel larger than the tree height is
enough. -/
def decompose (fuel : Nat) (root : FPath) (res : List Node)
    (als : List (String × Nat)) : List (String × SnapVal) :=
  match fuel with
  | 0 => []
  | fuel + 1 =>
    (itemsOf res als).map (fun it =>
      match it.2 with
      | Node.file _ p mo t => (it.1, SnapVal.fileS (relpathOf p root) mo t)
      | Node.dir _ p mo t r a =>
          (it.1, SnapVal.dirS (relpathOf p root) mo t (decompose fuel root r a)))

/-- `FSManager.save_all` (lines 945-975): `cd_root`, decompose the whole
tree, and write the document (the write through `self.open` is modelled by
returning the document; the state is returned because `cd_root` moves
`current`). -/
def saveAll (fuel : Nat) (m : MState) : List (String × SnapVal) × MState :=
  let m1 := cdRoot m
  match m1.tree with
  | Node.dir _ _ _ _ res als => (decompose fuel m1.rootPath res als, m1)
  | _ => ([], m1)

/-- The recursive `compose` of `load_all` (lines 988-998): for each entry,
directories are re-created with `mkdir alias path`, entered with `cd`,
recursively composed and left with `up`; files are re-created with
`mkfile alias path`.  The recorded `path` is relative to the root, but
`mkdir`/`mkfile` resolve it against the *current* prefix — which inside the
recursion is a descended subdirectory. -/
def compose (fuel : Nat) (entries : List (String × SnapVal)) (m : MState) :
    MState :=
  match fuel with
  | 0 => m
  | fuel + 1 =>
    match entries with
    | [] => m
    | (a, SnapVal.dirS relp mo t rs) :: rest =>
        compose fuel rest (up (compose fuel rs (cd a (mkdir a relp mo t m))))
    | (a, SnapVal.fileS relp mo t) :: rest =>
        compose fuel rest (mkfile a relp mo t m)

/-- `FSManager.load_all` (lines 977-1002): `cd_root`, read the document
(passed in as a value), and compose it. -/
def loadAll (fuel : Nat) (snap : List (String × SnapVal)) (m : MState) :
    MState :=
  compose fuel snap (cdRoot m)

/-! ### C1: the full-snapshot round trip -/

/-- The original manager: root r, directory alias `a` at relative path `a`,
containing file alias `b` at relative path `a/b` (the registered tree whose
round trip the claim asserts). -/
def c1Orig : MState :=
  { tree := Node.dir 0 ["r"] 448 false
      [Node.dir 1 ["r", "a"] 448 false
        [Node.file 2 ["r", "a", "b"] 384 false] [("b", 0)]]
      [("a", 0)],
    cur := [], pred := [], nextUid := 3, rootPath := ["r"], temporary := false,
    disk := { ddirs := [⟨["r"], 448⟩, ⟨["r", "a"], 448⟩],
              dfiles := [⟨["r", "a", "b"], 384, 0⟩], sidecars := [] } }

/-- The snapshot document `save_all` produces for `c1Orig`. -/
def c1Snap : List (String × SnapVal) := (saveAll 8 c1Orig).1

/-- A fresh manager over a copy of the root that holds only the snapshot
document (the repository's own `test_load_all` usage: an empty base plus the
copied `.fs-structure-full.json`; with no sidecar present the construction
`load()` is a no-op). -/
def c1Fresh : MState :=
  { tree := Node.dir 0 ["r2"] 448 false [] [],
    cur := [], pred := [], nextUid := 1, rootPath := ["r2"], temporary := false,
    disk := { ddirs := [⟨["r2"], 448⟩], dfiles := [], sidecars := [] } }

/-- The fresh manager after `load_all` of the saved snapshot. -/
def c1Loaded : MState := loadAll 8 c1Snap c1Fresh

/-- C1 evaluated at the failing input: the snapshot records alias `b` at
relative path `a/b`, but after `load_all` the alias chain `a`,`b` resolves
to a node whose path relative to the root is `a/a/b` — `compose` passes the
root-relative stored path to `mkfile` while the manager has already
descended into `a`, so the nested file is recreated (and its alias bound)
at a wrong absolute path, violating the round-trip contract. -/
theorem c1_round_trip_code_bug :
    (nodeAt ["a", "b"] c1Orig.tree).map
        (fun n => relpathOf n.path c1Orig.rootPath) = some ["a", "b"] ∧
    c1Snap = [("a", SnapVal.dirS ["a"] 448 false
                 [("b", SnapVal.fileS ["a", "b"] 384 false)])] ∧
    (nodeAt ["a", "b"] c1Loaded.tree).map
        (fun n => relpathOf n.path c1Loaded.rootPath) = some ["a", "a", "b"] := by
  refine ⟨by decide, rfl, by decide⟩

/-! ### Hashsum persistence and drift detection (lines 1004-1063)

`save_hashsums` / `check_hashsums` recurse over the current directory via
`cd` / recurse / `up`; the embedding recurses on the child container with a
fuel bound.  Python exceptions (KeyError on a sidecar entry or hash field
missing, IndexError on a dangling alias index, IOError on a missing file)
become `Except` errors; running out of fuel is its own error so that it can
never be mistaken for source behavior. -/

/-- A raised Python exception (plus fuel exhaustion of the embedding). -/
inductive PyErr where
  | keyErr : PyErr
  | indexErr : PyErr
  | ioErr : PyErr
  | fuelErr : PyErr
deriving DecidableEq, Repr

/-- The digest of a file content: the external MD5/SHA-1 digest service is
modelled as the identity on contents, i.e. as a collision-free digest. -/
def digestOf (c : Nat) : Nat := c

/-- A for-loop over container items with Python exception propagation: the
first raising step aborts the whole loop. -/
def exFold {A B : Type} (f : A -> B -> Except PyErr A) : A -> List B -> Except PyErr A
  | a, [] => Except.ok a
  | a, x :: xs =>
    match f a x with
    | Except.error e => Except.error e
    | Except.ok a2 => exFold f a2 xs

/-- `loaded_fs_struct[alias][type]`: the stored hash for an alias under the
chosen algorithm; either missing level raises KeyError. -/
def scGetHash (sc : Sidecar) (a : String) (alg : String) :
    Except PyErr Nat :=
  match sc.find? (fun kv => kv.1 = a) with
  | none => Except.error PyErr.keyErr
  | some kv =>
    match (if alg = "md5" then kv.2.md5 else kv.2.sha1) with
    | some h => Except.ok h
    | none => Except.error PyErr.keyErr

/-- `current_fs_struct[alias][type] = h`: store a hash on an existing entry
(KeyError when the alias is not in the sidecar). -/
def scSetHash (sc : Sidecar) (a : String) (alg : String) (h : Nat) :
    Except PyErr Sidecar :=
  if sc.any (fun kv => kv.1 = a) then
    Except.ok (sc.map (fun kv =>
      if kv.1 = a then
        (kv.1, if alg = "md5" then { kv.2 with md5 := some h }
               else { kv.2 with sha1 := some h })
      else kv))
  else Except.error PyErr.keyErr

/-- `FSManager.check_hashsums(type, log_warnings, mismatch)`
(lines 1032-1063): when the current directory has a sidecar, iterate the
container items; each file's stored hash is compared against the recomputed
digest and on mismatch the node is appended to the accumulator; each
directory child is recursed into (`cd`/recurse/`up`).  With no sidecar the
accumulator is returned unchanged (the source returns `None` there, never
touching the caller-visible list).  Warnings are log-only. -/
def checkHS (fuel : Nat) (dk : Disk) (alg : String) (nd : Node)
    (acc : List Node) : Except PyErr (List Node) :=
  match fuel with
  | 0 => Except.error PyErr.fuelErr
  | n + 1 =>
    match nd with
    | Node.file .. => Except.ok acc
    | Node.dir _ p _ _ res als =>
      match dk.sidecarAt p with
      | none => Except.ok acc
      | some sc =>
        if alg = "md5" ∨ alg = "sha1" then
          exFold (fun acc2 kv =>
            match res.get? kv.2 with
            | none => Except.error PyErr.indexErr
            | some child =>
              if child.isFile then
                match scGetHash sc kv.1 alg with
                | Except.error e => Except.error e
                | Except.ok stored =>
                  match dk.contentOf child.path with
                  | none => Except.error PyErr.ioErr
                  | some c =>
                      Except.ok (if stored ≠ digestOf c then acc2 ++ [child] else acc2)
              else checkHS n dk alg child acc2) acc als
        else Except.ok acc

/-- The loop body of `check_hashsums` for one container item, named for the
proofs; `checkHS_succ_dir` states that `checkHS` folds exactly this step. -/
def checkStep (n : Nat) (dk : Disk) (alg : String) (res : List Node)
    (sc : Sidecar) (acc2 : List Node) (kv : String × Nat) :
    Except PyErr (List Node) :=
  match res.get? kv.2 with
  | none => Except.error PyErr.indexErr
  | some child =>
    if child.isFile then
      match scGetHash sc kv.1 alg with
      | Except.error e => Except.error e
      | Except.ok stored =>
        match dk.contentOf child.path with
        | none => Except.error PyErr.ioErr
        | some c =>
            Except.ok (if stored ≠ digestOf c then acc2 ++ [child] else acc2)
    else checkHS n dk alg child acc2

theorem checkHS_succ_dir (n : Nat) (dk : Disk) (alg : String) (u : Nat)
    (p : FPath) (mo : Nat) (t : Bool) (res : List Node)
    (als : List (String × Nat)) (acc : List Node) :
    checkHS (n + 1) dk alg (Node.dir u p mo t res als) acc
      = match dk.sidecarAt p with
        | none => Except.ok acc
        | some sc =>
          if alg = "md5" ∨ alg = "sha1" then
            exFold (checkStep n dk alg res sc) acc als
          else Except.ok acc := rfl

/-- `FSManager.save_hashsums(type)` (lines 1004-1030): when the current
directory has a sidecar, load it, store the digest of every file child on
its entry, recurse into directory children, and rewrite the sidecar (the
rewrite happens even for an unknown algorithm, whose loop is skipped). -/
def saveHS (fuel : Nat) (dk : Disk) (alg : String) (nd : Node) :
    Except PyErr Disk :=
  match fuel with
  | 0 => Except.error PyErr.fuelErr
  | n + 1 =>
    match nd with
    | Node.file .. => Except.ok dk
    | Node.dir _ p _ _ res als =>
      match dk.sidecarAt p with
      | none => Except.ok dk
      | some sc =>
        if alg = "md5" ∨ alg = "sha1" then
          match exFold (fun st kv =>
            match res.get? kv.2 with
            | none => Except.error PyErr.indexErr
            | some child =>
              if child.isFile then
                match st.2.contentOf child.path with
                | none => Except.error PyErr.ioErr
                | some c =>
                  match scSetHash st.1 kv.1 alg (digestOf c) with
                  | Except.error e => Except.error e
                  | Except.ok sc2 => Except.ok (sc2, st.2)
              else
                match saveHS n st.2 alg child with
                | Except.error e => Except.error e
                | Except.ok dk2 => Except.ok (st.1, dk2)) ((sc, dk) : Sidecar × Disk) als with
          | Except.error e => Except.error e
          | Except.ok st => Except.ok (st.2.sidecarWrite p st.1)
        else Except.ok (dk.sidecarWrite p sc)

/-- The loop body of `save_hashsums` for one container item, named for the
proofs. -/
def saveStep (n : Nat) (alg : String) (res : List Node)
    (st : Sidecar × Disk) (kv : String × Nat) :
    Except PyErr (Sidecar × Disk) :=
  match res.get? kv.2 with
  | none => Except.error PyErr.indexErr
  | some child =>
    if child.isFile then
      match st.2.contentOf child.path with
      | none => Except.error PyErr.ioErr
      | some c =>
        match scSetHash st.1 kv.1 alg (digestOf c) with
        | Except.error e => Except.error e
        | Except.ok sc2 => Except.ok (sc2, st.2)
    else
      match saveHS n st.2 alg child with
      | Except.error e => Except.error e
      | Except.ok dk2 => Except.ok (st.1, dk2)

theorem saveHS_succ_dir (n : Nat) (dk : Disk) (alg : String) (u : Nat)
    (p : FPath) (mo : Nat) (t : Bool) (res : List Node)
    (als : List (String × Nat)) :
    saveHS (n + 1) dk alg (Node.dir u p mo t res als)
      = match dk.sidecarAt p with
        | none => Except.ok dk
        | some sc =>
          if alg = "md5" ∨ alg = "sha1" then
            match exFold (saveStep n alg res) ((sc, dk) : Sidecar × Disk) als with
            | Except.error e => Except.error e
            | Except.ok st => Except.ok (st.2.sidecarWrite p st.1)
          else Except.ok (dk.sidecarWrite p sc) := rfl

theorem exFold_nil {A B : Type} (f : A → B → Except PyErr A) (a : A) :
    exFold f a [] = Except.ok a := rfl

theorem exFold_cons {A B : Type} (f : A → B → Except PyErr A) (a : A)
    (x : B) (xs : List B) :
    exFold f a (x :: xs)
      = match f a x with
        | Except.error e => Except.error e
        | Except.ok a2 => exFold f a2 xs := by
  rw [exFold]

/-- If some element of the list makes the step fail (for every state), the
whole loop fails. -/
theorem exFold_error_of_mem {A B : Type} (f : A → B → Except PyErr A) :
    ∀ (l : List B) (x : B), x ∈ l →
      (∀ a, ∃ e, f a x = Except.error e) →
      ∀ a, ∃ e, exFold f a l = Except.error e := by
  intro l
  induction l with
  | nil => intro x hx; cases hx
  | cons y ys ih =>
    intro x hx hf a
    rcases List.mem_cons.mp hx with h | h
    · subst h
      obtain ⟨e, he⟩ := hf a
      exact ⟨e, by rw [exFold, he]⟩
    · cases hy : f a y with
      | error e => exact ⟨e, by rw [exFold, hy]⟩
      | ok a2 =>
        obtain ⟨e, he⟩ := ih x h hf a2
        exact ⟨e, by rw [exFold, hy]; exact he⟩

/-! ### C7: a File alias listed without a stored hash -/

/-- A root directory with one file alias `f` whose sidecar entry carries no
hash under any algorithm (a tracked alias that was never hashed). -/
def c7Tree : Node :=
  Node.dir 0 ["r"] 448 false [Node.file 1 ["r", "f"] 384 false] [("f", 0)]

def c7Disk : Disk :=
  { ddirs := [⟨["r"], 448⟩], dfiles := [⟨["r", "f"], 384, 7⟩],
    sidecars := [(["r"],
      [("f", { relp := ["f"], mode := 384, temp := false, isFile := true,
               md5 := none, sha1 := none })])] }

/-- Counterexample to C7 as stated: on a sidecar listing a file alias with
no stored `md5`, `check_hashsums` does not surface the condition in a
returned mismatch list — the `loaded_fs_struct[alias][type]` lookup raises
an uncaught KeyError, i.e. the call crashes. -/
theorem c7_missing_hash_counterexample :
    checkHS 4 c7Disk "md5" c7Tree [] = Except.error PyErr.keyErr := rfl

/-- C7 (amended): a File alias listed in the current sidecar without a
stored hash for the chosen algorithm is never treated as a matching digest,
but the condition is not reported through the mismatch list either: the
stored-hash lookup raises KeyError and `check_hashsums` aborts with an
exception. -/
theorem c7_missing_hash_amended (fuel : Nat) (dk : Disk) (alg : String)
    (u : Nat) (p : FPath) (mo : Nat) (t : Bool) (res : List Node)
    (als : List (String × Nat)) (acc : List Node) (a : String) (i : Nat)
    (child : Node)
    (halg : alg = "md5" ∨ alg = "sha1")
    (hsc : (dk.sidecarAt p).isSome = true)
    (hmem : (a, i) ∈ als)
    (hchild : res.get? i = some child)
    (hfile : child.isFile = true)
    (hmiss : scGetHash ((dk.sidecarAt p).getD []) a alg
               = Except.error PyErr.keyErr) :
    ∃ e, checkHS fuel dk alg (Node.dir u p mo t res als) acc
           = Except.error e := by
  cases fuel with
  | zero => exact ⟨PyErr.fuelErr, rfl⟩
  | succ n =>
    rw [Option.isSome_iff_exists] at hsc
    obtain ⟨sc, hscEq⟩ := hsc
    rw [hscEq] at hmiss
    simp only [Option.getD] at hmiss
    rw [checkHS_succ_dir, hscEq]
    simp only [halg, if_pos]
    have hstep : ∀ acc2, ∃ e,
        checkStep n dk alg res sc acc2 (a, i) = Except.error e := by
      intro acc2
      refine ⟨PyErr.keyErr, ?_⟩
      unfold checkStep
      simp only [List.get?_eq_getElem?] at hchild
      simp [hchild, hfile, hmiss]
    have := exFold_error_of_mem (checkStep n dk alg res sc) als (a, i) hmem
      hstep acc
    simpa using this

/-- Witness for the amended C7 at the concrete never-hashed sidecar. -/
theorem c7_missing_hash_amended_witness :
    ((("md5" : String) = "md5" ∨ ("md5" : String) = "sha1") ∧
      (c7Disk.sidecarAt ["r"]).isSome = true ∧
      (("f", 0) : String × Nat) ∈ [(("f", 0) : String × Nat)] ∧
      [Node.file 1 ["r", "f"] 384 false].get? 0
        = some (Node.file 1 ["r", "f"] 384 false)) ∧
    (∃ e, checkHS 4 c7Disk "md5"
        (Node.dir 0 ["r"] 448 false [Node.file 1 ["r", "f"] 384 false]
          [("f", 0)]) [] = Except.error e) :=
  ⟨⟨Or.inl rfl, by decide, by decide, rfl⟩,
    c7_missing_hash_amended 4 c7Disk "md5" 0 ["r"] 448 false
      [Node.file 1 ["r", "f"] 384 false] [("f", 0)] [] "f" 0
      (Node.file 1 ["r", "f"] 384 false)
      (Or.inl rfl) (by decide) (by decide) rfl rfl rfl⟩

/-! ### C10: the shared default mismatch accumulator -/

/-- The generic accumulator-translation property of a loop whose step only
appends to the accumulator. -/
theorem exFold_acc_append
    (g : List Node → (String × Nat) → Except PyErr (List Node))
    (hg : ∀ acc kv, g acc kv = (g [] kv).map (fun l => acc ++ l)) :
    ∀ (als : List (String × Nat)) (acc : List Node),
      exFold g acc als = (exFold g [] als).map (fun l => acc ++ l) := by
  intro als
  induction als with
  | nil => intro acc; simp [exFold, Except.map]
  | cons y ys ih =>
    intro acc
    cases hz : g [] y with
    | error e =>
      have hy : g acc y = Except.error e := by rw [hg acc y, hz]; rfl
      rw [exFold, exFold, hy, hz]
      rfl
    | ok d =>
      have hy : g acc y = Except.ok (acc ++ d) := by rw [hg acc y, hz]; rfl
      rw [exFold, exFold, hy, hz]
      show exFold g (acc ++ d) ys = Except.map (fun l => acc ++ l) (exFold g d ys)
      rw [ih (acc ++ d), ih d]
      cases hw : exFold g [] ys with
      | error e => rfl
      | ok l => simp [Except.map]

/-- `check_hashsums` only appends to the accumulator it is given: running
with accumulator `acc` returns `acc ++` whatever a run from the empty list
returns (and fails identically). -/
theorem checkHS_acc :
    ∀ (fuel : Nat) (dk : Disk) (alg : String) (nd : Node) (acc : List Node),
      checkHS fuel dk alg nd acc
        = (checkHS fuel dk alg nd []).map (fun l => acc ++ l) := by
  intro fuel
  induction fuel with
  | zero => intro dk alg nd acc; rfl
  | succ n ih =>
    intro dk alg nd acc
    match nd with
    | Node.file u p mo t => simp [checkHS, Except.map]
    | Node.dir u p mo t res als =>
      rw [checkHS_succ_dir, checkHS_succ_dir]
      cases hsc : dk.sidecarAt p with
      | none => simp [Except.map]
      | some sc =>
        by_cases halg : alg = "md5" ∨ alg = "sha1"
        · simp only [halg, if_pos]
          refine exFold_acc_append (checkStep n dk alg res sc) ?_ als acc
          intro acc2 kv
          unfold checkStep
          cases hg : res.get? kv.2 with
          | none => rfl
          | some child =>
            simp only []
            by_cases hf : child.isFile = true
            · simp only [hf, if_pos]
              cases scGetHash sc kv.1 alg with
              | error e => rfl
              | ok stored =>
                cases dk.contentOf child.path with
                | none => rfl
                | some c =>
                  by_cases hmis : stored ≠ digestOf c
                  · simp [hmis, Except.map]
                  · simp [hmis, Except.map]
            · simp only [Bool.not_eq_true] at hf
              simp only [hf]
              exact ih dk alg child acc2
        · simp [halg, Except.map]

/-- C10: Python evaluates the default `mismatch=[]` once, so consecutive
invocations that omit the argument share one list; the second omitted-
argument call starts from the list the first call returned.  Its result
therefore still contains (as a prefix) every entry appended by the first
call, rather than being a fresh list of only the current tree's
mismatches. -/
theorem c10_default_accumulator_shared (fuel : Nat) (dk1 dk2 : Disk)
    (alg : String) (nd1 nd2 : Node) (l1 l2 : List Node)
    (h1 : checkHS fuel dk1 alg nd1 [] = Except.ok l1)
    (h2 : checkHS fuel dk2 alg nd2 l1 = Except.ok l2) :
    l1 <+: l2 := by
  rw [checkHS_acc] at h2
  cases hz : checkHS fuel dk2 alg nd2 [] with
  | error e => rw [hz] at h2; cases h2
  | ok l3 =>
    rw [hz] at h2
    simp only [Except.map] at h2
    cases h2
    exact ⟨l3, rfl⟩

/-- A tracked file whose current content (7) disagrees with the stored md5
(5), so a run from the empty accumulator reports it once. -/
def c10File : Node := Node.file 1 ["r", "f"] 384 false

def c10Tree : Node := Node.dir 0 ["r"] 448 false [c10File] [("f", 0)]

def c10Disk : Disk :=
  { ddirs := [⟨["r"], 448⟩], dfiles := [⟨["r", "f"], 384, 7⟩],
    sidecars := [(["r"],
      [("f", { relp := ["f"], mode := 384, temp := false, isFile := true,
               md5 := some 5, sha1 := none })])] }

/-- Witness for C10: the first omitted-argument call returns `[c10File]`;
the second call (starting from the shared default, now `[c10File]`) returns
`[c10File, c10File]`, of which the first call's list is a prefix. -/
theorem c10_default_accumulator_shared_witness :
    (checkHS 4 c10Disk "md5" c10Tree [] = Except.ok [c10File] ∧
      checkHS 4 c10Disk "md5" c10Tree [c10File]
        = Except.ok [c10File, c10File]) ∧
    [c10File] <+: [c10File, c10File] :=
  ⟨⟨rfl, rfl⟩,
    c10_default_accumulator_shared 4 c10Disk c10Disk "md5" c10Tree c10Tree
      [c10File] [c10File, c10File] rfl rfl⟩

/-! ### C6: drift detection after `save_hashsums`

The development below characterizes `save_hashsums` (it augments every
reachable sidecar with the digests of the current file contents) and
`check_hashsums` (it returns exactly the visited files whose stored digest
disagrees with the recomputed one), and combines the two into the drift
claim.  Reachability follows the visit order of both functions: the aliased
children of the current container, recursing into directories. -/

theorem upd_fst {K V : Type} [DecidableEq K] (p : K) (g : K × V → V)
    (kv : K × V) :
    (if kv.1 = p then (kv.1, g kv) else kv).1 = kv.1 := by
  split <;> rfl

theorem find?_map_upd_ne {K V : Type} [DecidableEq K]
    (p q : K) (g : K × V → V) (hq : q ≠ p) (l : List (K × V)) :
    (l.map (fun kv => if kv.1 = p then (kv.1, g kv) else kv)).find?
        (fun kv => kv.1 = q)
      = l.find? (fun kv => kv.1 = q) := by
  rw [List.find?_map]
  have hc : ((fun kv : K × V => decide (kv.1 = q)) ∘
      (fun kv => if kv.1 = p then (kv.1, g kv) else kv))
      = (fun kv : K × V => decide (kv.1 = q)) := by
    funext kv
    simp only [Function.comp_apply, upd_fst]
  rw [hc]
  cases h0 : l.find? (fun kv : K × V => decide (kv.1 = q)) with
  | none => rfl
  | some kv0 =>
    have hk : kv0.1 = q := by
      have := List.find?_some h0
      simpa using this
    simp only [Option.map]
    have : (if kv0.1 = p then (kv0.1, g kv0) else kv0) = kv0 := by
      rw [if_neg]
      rw [hk]
      exact hq
    rw [this]

theorem find?_map_upd_eq {K V : Type} [DecidableEq K]
    (p : K) (g : K × V → V) (l : List (K × V))
    (hany : l.any (fun kv => kv.1 = p) = true) :
    ∃ v0, l.find? (fun kv => kv.1 = p) = some (p, v0) ∧
      (l.map (fun kv => if kv.1 = p then (kv.1, g kv) else kv)).find?
          (fun kv => kv.1 = p)
        = some (p, g (p, v0)) := by
  have hex : ∃ x ∈ l, (fun kv : K × V => decide (kv.1 = p)) x := by
    rw [List.any_eq_true] at hany
    simpa using hany
  have hs : (l.find? (fun kv : K × V => decide (kv.1 = p))).isSome :=
    List.find?_isSome.mpr hex
  cases h0 : l.find? (fun kv : K × V => decide (kv.1 = p)) with
  | none => rw [h0] at hs; cases hs
  | some kv0 =>
    have hk : kv0.1 = p := by
      have := List.find?_some h0
      simpa using this
    have hkv : kv0 = (p, kv0.2) := by
      cases kv0
      simp_all
    refine ⟨kv0.2, congrArg some hkv, ?_⟩
    rw [List.find?_map]
    have hc : ((fun kv : K × V => decide (kv.1 = p)) ∘
        (fun kv => if kv.1 = p then (kv.1, g kv) else kv))
        = (fun kv : K × V => decide (kv.1 = p)) := by
      funext kv
      simp only [Function.comp_apply, upd_fst]
    rw [hc, h0]
    simp only [Option.map]
    rw [if_pos hk, hk, ← hkv]

theorem find?_append_ne {K V : Type} [DecidableEq K]
    (p q : K) (v : V) (hq : q ≠ p) (l : List (K × V)) :
    (l ++ [(p, v)]).find? (fun kv => kv.1 = q)
      = l.find? (fun kv => kv.1 = q) := by
  rw [List.find?_append]
  have h1 : ([((p, v) : K × V)].find? (fun kv => kv.1 = q)) = none := by
    simp [Ne.symm hq]
  rw [h1]
  cases l.find? (fun kv : K × V => decide (kv.1 = q)) <;> rfl

theorem find?_append_self {K V : Type} [DecidableEq K]
    (p : K) (v : V) (l : List (K × V))
    (hany : l.any (fun kv => kv.1 = p) = false) :
    (l ++ [(p, v)]).find? (fun kv => kv.1 = p) = some (p, v) := by
  rw [List.find?_append]
  have h0 : l.find? (fun kv : K × V => decide (kv.1 = p)) = none := by
    rw [List.find?_eq_none]
    intro x hx hpx
    have : l.any (fun kv => kv.1 = p) = true :=
      List.any_eq_true.mpr ⟨x, hx, hpx⟩
    rw [this] at hany
    cases hany
  rw [h0]
  simp

theorem sidecarWrite_dfiles (dk : Disk) (p : FPath) (sc : Sidecar) :
    (dk.sidecarWrite p sc).dfiles = dk.dfiles := by
  unfold Disk.sidecarWrite
  split <;> rfl

theorem sidecarWrite_ddirs (dk : Disk) (p : FPath) (sc : Sidecar) :
    (dk.sidecarWrite p sc).ddirs = dk.ddirs := by
  unfold Disk.sidecarWrite
  split <;> rfl

theorem contentOf_congr {dkA dkB : Disk} (h : dkA.dfiles = dkB.dfiles)
    (q : FPath) : dkA.contentOf q = dkB.contentOf q := by
  unfold Disk.contentOf
  rw [h]

theorem sidecarAt_write_self (dk : Disk) (p : FPath) (sc : Sidecar) :
    (dk.sidecarWrite p sc).sidecarAt p = some sc := by
  unfold Disk.sidecarWrite Disk.sidecarAt
  by_cases hany : dk.sidecars.any (fun kv => kv.1 = p) = true
  · rw [if_pos hany]
    obtain ⟨v0, h1, h2⟩ := find?_map_upd_eq p (fun _ => sc) dk.sidecars hany
    simp only []
    rw [h2]
    rfl
  · rw [if_neg hany]
    simp only [Bool.not_eq_true] at hany
    simp only []
    rw [find?_append_self p sc dk.sidecars hany]
    rfl

theorem sidecarAt_write_other (dk : Disk) (p q : FPath) (sc : Sidecar)
    (hq : q ≠ p) :
    (dk.sidecarWrite p sc).sidecarAt q = dk.sidecarAt q := by
  unfold Disk.sidecarWrite Disk.sidecarAt
  by_cases hany : dk.sidecars.any (fun kv => kv.1 = p) = true
  · rw [if_pos hany]
    simp only []
    rw [find?_map_upd_ne p q (fun _ => sc) hq]
  · rw [if_neg hany]
    simp only []
    rw [find?_append_ne p q sc hq]

theorem setContent_sidecarAt (dk : Disk) (p : FPath) (c : Nat) :
    (dk.setContent p c).sidecarAt = dk.sidecarAt := rfl

theorem setContent_ddirs (dk : Disk) (p : FPath) (c : Nat) :
    (dk.setContent p c).ddirs = dk.ddirs := rfl

theorem contentOf_setContent_self (dk : Disk) (p : FPath) (c : Nat)
    (h : (dk.contentOf p).isSome = true) :
    (dk.setContent p c).contentOf p = some c := by
  unfold Disk.contentOf at *
  unfold Disk.setContent
  simp only []
  rw [List.find?_map]
  have hc : ((fun f : DFile => decide (f.path = p)) ∘
      (fun f => if f.path = p then { f with content := c } else f))
      = (fun f : DFile => decide (f.path = p)) := by
    funext f
    simp only [Function.comp_apply]
    split <;> rfl
  rw [hc]
  cases h0 : dk.dfiles.find? (fun f : DFile => decide (f.path = p)) with
  | none => rw [h0] at h; cases h
  | some fl =>
    have hk : fl.path = p := by
      have := List.find?_some h0
      simpa using this
    simp only [Option.map]
    rw [if_pos hk]

theorem contentOf_setContent_other (dk : Disk) (p q : FPath) (c : Nat)
    (hq : q ≠ p) :
    (dk.setContent p c).contentOf q = dk.contentOf q := by
  unfold Disk.contentOf Disk.setContent
  simp only []
  rw [List.find?_map]
  have hc : ((fun f : DFile => decide (f.path = q)) ∘
      (fun f => if f.path = p then { f with content := c } else f))
      = (fun f : DFile => decide (f.path = q)) := by
    funext f
    simp only [Function.comp_apply]
    split <;> rfl
  rw [hc]
  cases h0 : dk.dfiles.find? (fun f : DFile => decide (f.path = q)) with
  | none => rfl
  | some fl =>
    have hk : fl.path = q := by
      have := List.find?_some h0
      simpa using this
    simp only [Option.map]
    rw [if_neg (fun h => hq (hk ▸ h))]

theorem any_map_upd {K V : Type} [DecidableEq K] (p b : K) (g : K × V → V)
    (l : List (K × V)) :
    ((l.map (fun kv => if kv.1 = p then (kv.1, g kv) else kv)).any
        (fun kv => kv.1 = b))
      = l.any (fun kv => kv.1 = b) := by
  rw [List.any_map]
  congr 1
  funext kv
  simp only [Function.comp_apply, upd_fst]

theorem scSetHash_ok_map (sc : Sidecar) (a alg : String) (h : Nat)
    (sc2 : Sidecar) (hset : scSetHash sc a alg h = Except.ok sc2) :
    sc.any (fun kv => kv.1 = a) = true ∧
    sc2 = sc.map (fun kv =>
      if kv.1 = a then
        (kv.1, if alg = "md5" then { kv.2 with md5 := some h }
               else { kv.2 with sha1 := some h })
      else kv) := by
  unfold scSetHash at hset
  by_cases hany : sc.any (fun kv => kv.1 = a) = true
  · rw [if_pos hany] at hset
    injection hset with h2
    exact ⟨hany, h2.symm⟩
  · rw [if_neg hany] at hset
    cases hset

theorem scGetHash_setHash_self (sc : Sidecar) (a alg : String) (h : Nat)
    (sc2 : Sidecar) (halg : alg = "md5" ∨ alg = "sha1")
    (hset : scSetHash sc a alg h = Except.ok sc2) :
    scGetHash sc2 a alg = Except.ok h := by
  obtain ⟨hany, hmap⟩ := scSetHash_ok_map sc a alg h sc2 hset
  subst hmap
  unfold scGetHash
  obtain ⟨v0, h1, h2⟩ := find?_map_upd_eq a
    (fun kv => if alg = "md5" then { kv.2 with md5 := some h }
               else { kv.2 with sha1 := some h }) sc hany
  rw [h2]
  rcases halg with ha | ha
  · subst ha; simp
  · subst ha
    simp [show ¬ (("sha1" : String) = "md5") from by decide]

theorem scGetHash_setHash_other (sc : Sidecar) (a alg alg2 : String)
    (h : Nat) (sc2 : Sidecar) (b : String) (hb : b ≠ a)
    (hset : scSetHash sc a alg h = Except.ok sc2) :
    scGetHash sc2 b alg2 = scGetHash sc b alg2 := by
  obtain ⟨hany, hmap⟩ := scSetHash_ok_map sc a alg h sc2 hset
  subst hmap
  unfold scGetHash
  rw [find?_map_upd_ne a b _ hb]

theorem scSetHash_any (sc : Sidecar) (a alg : String) (h : Nat)
    (sc2 : Sidecar) (b : String)
    (hset : scSetHash sc a alg h = Except.ok sc2) :
    sc2.any (fun kv => kv.1 = b) = sc.any (fun kv => kv.1 = b) := by
  obtain ⟨hany, hmap⟩ := scSetHash_ok_map sc a alg h sc2 hset
  subst hmap
  exact any_map_upd a b _ sc

/-- One step of the sidecar augmentation performed by the `save_hashsums`
loop on a single container item. -/
def scAugStep (alg : String) (dk0 : Disk) (res : List Node)
    (sc : Sidecar) (kv : String × Nat) : Sidecar :=
  match res.get? kv.2 with
  | some child =>
      if child.isFile then
        match dk0.contentOf child.path with
        | some c =>
          match scSetHash sc kv.1 alg (digestOf c) with
          | Except.ok s2 => s2
          | Except.error _ => sc
        | none => sc
      else sc
  | none => sc

theorem scAugStep_none {alg : String} {dk0 : Disk} {res : List Node}
    {kv : String × Nat} (sc : Sidecar) (h : res.get? kv.2 = none) :
    scAugStep alg dk0 res sc kv = sc := by
  unfold scAugStep
  rw [h]

theorem scAugStep_dir {alg : String} {dk0 : Disk} {res : List Node}
    {kv : String × Nat} {child : Node} (sc : Sidecar)
    (h : res.get? kv.2 = some child) (hf : child.isFile = false) :
    scAugStep alg dk0 res sc kv = sc := by
  unfold scAugStep
  rw [h]
  simp [hf]

theorem scAugStep_file_noContent {alg : String} {dk0 : Disk}
    {res : List Node} {kv : String × Nat} {child : Node} (sc : Sidecar)
    (h : res.get? kv.2 = some child) (hf : child.isFile = true)
    (hc : dk0.contentOf child.path = none) :
    scAugStep alg dk0 res sc kv = sc := by
  unfold scAugStep
  rw [h]
  simp [hf, hc]

theorem scAugStep_file_err {alg : String} {dk0 : Disk} {res : List Node}
    {kv : String × Nat} {child : Node} {c : Nat} {e : PyErr} (sc : Sidecar)
    (h : res.get? kv.2 = some child) (hf : child.isFile = true)
    (hc : dk0.contentOf child.path = some c)
    (hset : scSetHash sc kv.1 alg (digestOf c) = Except.error e) :
    scAugStep alg dk0 res sc kv = sc := by
  unfold scAugStep
  rw [h]
  simp [hf, hc, hset]

theorem scAugStep_file_ok {alg : String} {dk0 : Disk} {res : List Node}
    {kv : String × Nat} {child : Node} {c : Nat} {s2 : Sidecar}
    (sc : Sidecar)
    (h : res.get? kv.2 = some child) (hf : child.isFile = true)
    (hc : dk0.contentOf child.path = some c)
    (hset : scSetHash sc kv.1 alg (digestOf c) = Except.ok s2) :
    scAugStep alg dk0 res sc kv = s2 := by
  unfold scAugStep
  rw [h]
  simp [hf, hc, hset]

/-- The sidecar produced for one directory by the `save_hashsums` loop: each
file child's entry receives the digest of its current content; directory
children leave the sidecar alone (their own sidecars are updated by the
recursion). -/
def scAugmented (alg : String) (dk0 : Disk) (res : List Node)
    (als : List (String × Nat)) (sc : Sidecar) : Sidecar :=
  als.foldl (scAugStep alg dk0 res) sc

theorem scAugmented_nil (alg : String) (dk0 : Disk) (res : List Node)
    (sc : Sidecar) : scAugmented alg dk0 res [] sc = sc := rfl

theorem scAugmented_cons (alg : String) (dk0 : Disk) (res : List Node)
    (kv : String × Nat) (rest : List (String × Nat)) (sc : Sidecar) :
    scAugmented alg dk0 res (kv :: rest) sc
      = scAugmented alg dk0 res rest (scAugStep alg dk0 res sc kv) := rfl

/-- Case analysis on one augmentation step: it is either the identity or a
successful `scSetHash` at the item's own key. -/
theorem scAugStep_id_or_set (alg : String) (dk0 : Disk) (res : List Node)
    (sc : Sidecar) (kv : String × Nat) :
    scAugStep alg dk0 res sc kv = sc ∨
    ∃ c, scSetHash sc kv.1 alg (digestOf c)
           = Except.ok (scAugStep alg dk0 res sc kv) := by
  cases hg : res.get? kv.2 with
  | none => exact Or.inl (scAugStep_none sc hg)
  | some child =>
    by_cases hf : child.isFile = true
    · cases hc : dk0.contentOf child.path with
      | none => exact Or.inl (scAugStep_file_noContent sc hg hf hc)
      | some c =>
        cases hset : scSetHash sc kv.1 alg (digestOf c) with
        | error e => exact Or.inl (scAugStep_file_err sc hg hf hc hset)
        | ok s2 =>
          right
          refine ⟨c, ?_⟩
          rw [scAugStep_file_ok sc hg hf hc hset]
          exact hset
    · simp only [Bool.not_eq_true] at hf
      exact Or.inl (scAugStep_dir sc hg hf)

theorem scAugmented_any (alg : String) (dk0 : Disk) (res : List Node)
    (b : String) :
    ∀ (als : List (String × Nat)) (sc : Sidecar),
      (scAugmented alg dk0 res als sc).any (fun kv => kv.1 = b)
        = sc.any (fun kv => kv.1 = b) := by
  intro als
  induction als with
  | nil => intro sc; rfl
  | cons kv rest ih =>
    intro sc
    rw [scAugmented_cons, ih]
    rcases scAugStep_id_or_set alg dk0 res sc kv with h | ⟨c, h⟩
    · rw [h]
    · exact scSetHash_any sc kv.1 alg (digestOf c) _ b h

theorem scAugmented_preserve (alg alg2 : String) (dk0 : Disk)
    (res : List Node) (a : String) :
    ∀ (als : List (String × Nat)) (sc : Sidecar),
      a ∉ als.map Prod.fst →
      scGetHash (scAugmented alg dk0 res als sc) a alg2
        = scGetHash sc a alg2 := by
  intro als
  induction als with
  | nil => intro sc _; rfl
  | cons kv rest ih =>
    intro sc hnm
    simp only [List.map_cons, List.mem_cons] at hnm
    push_neg at hnm
    obtain ⟨hne, hnm2⟩ := hnm
    rw [scAugmented_cons, ih _ (by simpa using hnm2)]
    rcases scAugStep_id_or_set alg dk0 res sc kv with h | ⟨c, h⟩
    · rw [h]
    · exact scGetHash_setHash_other sc kv.1 alg alg2 (digestOf c) _ a
        hne h

/-- After the augmentation loop, every file alias stores exactly the digest
of its current content. -/
theorem scAugmented_get (alg : String) (halg : alg = "md5" ∨ alg = "sha1")
    (dk0 : Disk) (res : List Node) (a : String) (i : Nat) (child : Node)
    (c : Nat)
    (hchild : res.get? i = some child) (hfile : child.isFile = true)
    (hc : dk0.contentOf child.path = some c) :
    ∀ (als : List (String × Nat)) (sc : Sidecar),
      (a, i) ∈ als →
      (als.map Prod.fst).Nodup →
      sc.any (fun kv => kv.1 = a) = true →
      scGetHash (scAugmented alg dk0 res als sc) a alg
        = Except.ok (digestOf c) := by
  intro als
  induction als with
  | nil => intro sc hmem; cases hmem
  | cons kv rest ih =>
    intro sc hmem hnd hany
    simp only [List.map_cons, List.nodup_cons] at hnd
    obtain ⟨hhd, hnd2⟩ := hnd
    rcases List.mem_cons.mp hmem with he | he
    · subst he
      rw [scAugmented_cons]
      cases hset : scSetHash sc a alg (digestOf c) with
      | error e =>
        unfold scSetHash at hset
        rw [if_pos hany] at hset
        cases hset
      | ok s2 =>
        rw [scAugStep_file_ok sc hchild hfile hc hset]
        rw [scAugmented_preserve alg alg dk0 res a rest s2 hhd]
        exact scGetHash_setHash_self sc a alg (digestOf c) s2 halg hset
    · have hne : kv.1 ≠ a := by
        intro h
        exact hhd (h ▸ (List.mem_map.mpr ⟨(a, i), he, rfl⟩))
      rw [scAugmented_cons]
      rcases scAugStep_id_or_set alg dk0 res sc kv with h | ⟨c2, h⟩
      · rw [h]
        exact ih sc he hnd2 hany
      · refine ih _ he hnd2 ?_
        rw [scSetHash_any sc kv.1 alg (digestOf c2) _ a h]
        exact hany

/-- Directory nodes visited by the hashsum recursion from `nd`: the node
itself, then recursively the aliased directory children, in alias order. -/
def reachDirs (fuel : Nat) (nd : Node) : List Node :=
  match fuel with
  | 0 => []
  | n + 1 =>
    match nd with
    | Node.file .. => []
    | Node.dir u p mo t res als =>
        Node.dir u p mo t res als ::
          als.flatMap (fun kv =>
            match res.get? kv.2 with
            | some c => if c.isFile then [] else reachDirs n c
            | none => [])

/-- File nodes visited by the hashsum recursion from `nd`, in visit order. -/
def reachFiles (fuel : Nat) (nd : Node) : List Node :=
  match fuel with
  | 0 => []
  | n + 1 =>
    match nd with
    | Node.file .. => []
    | Node.dir _ _ _ _ res als =>
        als.flatMap (fun kv =>
          match res.get? kv.2 with
          | some c => if c.isFile then [c] else reachFiles n c
          | none => [])

/-- The directory nodes contributed by a list of container items. -/
def todoDirs (n : Nat) (res : List Node) (todo : List (String × Nat)) :
    List Node :=
  todo.flatMap (fun kv =>
    match res.get? kv.2 with
    | some c => if c.isFile then [] else reachDirs n c
    | none => [])

/-- The file nodes contributed by a list of container items. -/
def todoFiles (n : Nat) (res : List Node) (todo : List (String × Nat)) :
    List Node :=
  todo.flatMap (fun kv =>
    match res.get? kv.2 with
    | some c => if c.isFile then [c] else reachFiles n c
    | none => [])

theorem reachDirs_succ (n : Nat) (u : Nat) (p : FPath) (mo : Nat) (t : Bool)
    (res : List Node) (als : List (String × Nat)) :
    reachDirs (n + 1) (Node.dir u p mo t res als)
      = Node.dir u p mo t res als :: todoDirs n res als := rfl

theorem reachFiles_succ (n : Nat) (u : Nat) (p : FPath) (mo : Nat) (t : Bool)
    (res : List Node) (als : List (String × Nat)) :
    reachFiles (n + 1) (Node.dir u p mo t res als) = todoFiles n res als := rfl

theorem todoDirs_nil (n : Nat) (res : List Node) : todoDirs n res [] = [] := rfl

theorem todoFiles_nil (n : Nat) (res : List Node) :
    todoFiles n res [] = [] := rfl

theorem todoDirs_cons (n : Nat) (res : List Node) (kv : String × Nat)
    (rest : List (String × Nat)) :
    todoDirs n res (kv :: rest)
      = (match res.get? kv.2 with
         | some c => if c.isFile then [] else reachDirs n c
         | none => []) ++ todoDirs n res rest := by
  unfold todoDirs
  rw [List.flatMap_cons]

theorem todoFiles_cons (n : Nat) (res : List Node) (kv : String × Nat)
    (rest : List (String × Nat)) :
    todoFiles n res (kv :: rest)
      = (match res.get? kv.2 with
         | some c => if c.isFile then [c] else reachFiles n c
         | none => []) ++ todoFiles n res rest := by
  unfold todoFiles
  rw [List.flatMap_cons]

/-- Per-directory well-formedness of the hashsum scenario: the directory has
a sidecar, alias keys are unique, every alias index resolves, and every file
child has bytes on disk and an entry in the sidecar. -/
def dirWfB (dk : Disk) (p : FPath) (res : List Node)
    (als : List (String × Nat)) : Bool :=
  (dk.sidecarAt p).isSome &&
  decide ((als.map Prod.fst).Nodup) &&
  als.all (fun kv =>
    match res.get? kv.2 with
    | none => false
    | some child =>
      if child.isFile then
        (dk.contentOf child.path).isSome &&
        ((dk.sidecarAt p).getD []).any (fun e => e.1 = kv.1)
      else true)

/-- Tree-wide well-formedness of the hashsum scenario, to recursion depth
`fuel` (false when the fuel cannot cover the tree). -/
def wfHash (fuel : Nat) (dk : Disk) (nd : Node) : Bool :=
  match fuel with
  | 0 => false
  | n + 1 =>
    match nd with
    | Node.file .. => true
    | Node.dir u p mo t res als =>
        dirWfB dk p res als &&
        als.all (fun kv =>
          match res.get? kv.2 with
          | none => false
          | some child => if child.isFile then true else wfHash n dk child)

theorem wfHash_succ_dir (n : Nat) (dk : Disk) (u : Nat) (p : FPath)
    (mo : Nat) (t : Bool) (res : List Node) (als : List (String × Nat)) :
    wfHash (n + 1) dk (Node.dir u p mo t res als)
      = (dirWfB dk p res als &&
          als.all (fun kv =>
            match res.get? kv.2 with
            | none => false
            | some child => if child.isFile then true else wfHash n dk child)) :=
  rfl

/-- The directory-child well-formedness the save fold needs of its pending
items. -/
def todoWfB (n : Nat) (dk : Disk) (res : List Node)
    (todo : List (String × Nat)) : Bool :=
  todo.all (fun kv =>
    match res.get? kv.2 with
    | none => true
    | some child => if child.isFile then true else wfHash n dk child)

theorem all_congr_mem {α : Type} (l : List α) (f g : α → Bool)
    (h : ∀ x ∈ l, f x = g x) : l.all f = l.all g := by
  induction l with
  | nil => rfl
  | cons y ys ih =>
    simp only [List.all_cons]
    rw [h y (List.mem_cons_self y ys), ih (fun x hx => h x (List.mem_cons_of_mem y hx))]

theorem mem_todoDirs_of_child {n : Nat} {res : List Node}
    {als : List (String × Nat)} {kv : String × Nat} {child x : Node}
    (hkv : kv ∈ als) (hg : res.get? kv.2 = some child)
    (hf : child.isFile = false) (hx : x ∈ reachDirs n child) :
    x ∈ todoDirs n res als := by
  unfold todoDirs
  rw [List.mem_flatMap]
  refine ⟨kv, hkv, ?_⟩
  simp only [hg, hf]
  exact hx

theorem mem_todoFiles_of_dir_child {n : Nat} {res : List Node}
    {als : List (String × Nat)} {kv : String × Nat} {child x : Node}
    (hkv : kv ∈ als) (hg : res.get? kv.2 = some child)
    (hf : child.isFile = false) (hx : x ∈ reachFiles n child) :
    x ∈ todoFiles n res als := by
  unfold todoFiles
  rw [List.mem_flatMap]
  refine ⟨kv, hkv, ?_⟩
  simp only [hg, hf]
  exact hx

theorem mem_todoFiles_of_file_child {n : Nat} {res : List Node}
    {als : List (String × Nat)} {kv : String × Nat} {child : Node}
    (hkv : kv ∈ als) (hg : res.get? kv.2 = some child)
    (hf : child.isFile = true) : child ∈ todoFiles n res als := by
  unfold todoFiles
  rw [List.mem_flatMap]
  refine ⟨kv, hkv, ?_⟩
  simp only [hg, hf]
  exact List.mem_singleton.mpr rfl

theorem scAugStep_congr {dkA dkB : Disk} (h : dkA.dfiles = dkB.dfiles)
    (alg : String) (res : List Node) (sc : Sidecar) (kv : String × Nat) :
    scAugStep alg dkA res sc kv = scAugStep alg dkB res sc kv := by
  unfold scAugStep
  simp only [contentOf_congr h]

theorem scAugmented_congr {dkA dkB : Disk} (h : dkA.dfiles = dkB.dfiles)
    (alg : String) (res : List Node) :
    ∀ (als : List (String × Nat)) (sc : Sidecar),
      scAugmented alg dkA res als sc = scAugmented alg dkB res als sc := by
  intro als
  induction als with
  | nil => intro sc; rfl
  | cons kv rest ih =>
    intro sc
    rw [scAugmented_cons, scAugmented_cons, scAugStep_congr h, ih]

theorem dirWfB_congr {dkA dkB : Disk} {p : FPath}
    (hs : dkB.sidecarAt p = dkA.sidecarAt p) (hd : dkB.dfiles = dkA.dfiles)
    (res : List Node) (als : List (String × Nat)) :
    dirWfB dkB p res als = dirWfB dkA p res als := by
  unfold dirWfB
  simp only [hs, contentOf_congr hd]

theorem wfHash_congr :
    ∀ (fuel : Nat) (nd : Node) {dkA dkB : Disk},
      dkB.dfiles = dkA.dfiles →
      (∀ q ∈ (reachDirs fuel nd).map Node.path,
        dkB.sidecarAt q = dkA.sidecarAt q) →
      wfHash fuel dkB nd = wfHash fuel dkA nd := by
  intro fuel
  induction fuel with
  | zero => intro nd dkA dkB hd hs; rfl
  | succ n ih =>
    intro nd dkA dkB hd hs
    match nd with
    | Node.file u p mo t => rfl
    | Node.dir u p mo t res als =>
      rw [wfHash_succ_dir, wfHash_succ_dir]
      have hp : dkB.sidecarAt p = dkA.sidecarAt p := by
        refine hs p ?_
        rw [reachDirs_succ, List.map_cons]
        exact List.mem_cons_self _ _
      rw [dirWfB_congr hp hd res als]
      congr 1
      refine all_congr_mem als _ _ ?_
      intro kv hkv
      cases hg : res.get? kv.2 with
      | none => rfl
      | some child =>
        simp only [hg]
        by_cases hf : child.isFile = true
        · simp only [hf]
          rfl
        · simp only [Bool.not_eq_true] at hf
          simp only [hf]
          refine ih child hd ?_
          intro q hq
          refine hs q ?_
          rw [reachDirs_succ, List.map_cons]
          refine List.mem_cons_of_mem _ ?_
          rw [List.mem_map] at hq
          obtain ⟨x, hx, hxq⟩ := hq
          rw [List.mem_map]
          exact ⟨x, mem_todoDirs_of_child hkv hg hf hx, hxq⟩

/-- Unpack tree well-formedness at a directory into its parts. -/
theorem wfHash_dir_parts {n : Nat} {dk : Disk} {u : Nat} {p : FPath}
    {mo : Nat} {t : Bool} {res : List Node} {als : List (String × Nat)}
    (h : wfHash (n + 1) dk (Node.dir u p mo t res als) = true) :
    dirWfB dk p res als = true ∧
    (∀ kv ∈ als, ∃ child, res.get? kv.2 = some child ∧
      (child.isFile = true ∨ wfHash n dk child = true)) ∧
    todoWfB n dk res als = true := by
  rw [wfHash_succ_dir, Bool.and_eq_true] at h
  obtain ⟨h1, h2⟩ := h
  rw [List.all_eq_true] at h2
  refine ⟨h1, ?_, ?_⟩
  · intro kv hkv
    have h0 := h2 kv hkv
    cases hg : res.get? kv.2 with
    | none => rw [hg] at h0; cases h0
    | some child =>
      rw [hg] at h0
      have h0b : (if child.isFile = true then true else wfHash n dk child)
          = true := h0
      by_cases hf : child.isFile = true
      · exact ⟨child, rfl, Or.inl hf⟩
      · rw [if_neg hf] at h0b
        exact ⟨child, rfl, Or.inr h0b⟩
  · rw [todoWfB, List.all_eq_true]
    intro kv hkv
    have h0 := h2 kv hkv
    cases hg : res.get? kv.2 with
    | none => simp [hg]
    | some child =>
      rw [hg] at h0
      have h0b : (if child.isFile = true then true else wfHash n dk child)
          = true := h0
      simp only [hg]
      show (if child.isFile = true then true else wfHash n dk child) = true
      exact h0b

/-- Unpack per-directory well-formedness. -/
theorem dirWfB_parts {dk : Disk} {p : FPath} {res : List Node}
    {als : List (String × Nat)} (h : dirWfB dk p res als = true) :
    (dk.sidecarAt p).isSome = true ∧
    (als.map Prod.fst).Nodup ∧
    (∀ kv ∈ als, ∃ child, res.get? kv.2 = some child ∧
      (child.isFile = true →
        (dk.contentOf child.path).isSome = true ∧
        ((dk.sidecarAt p).getD []).any (fun e => e.1 = kv.1) = true)) := by
  unfold dirWfB at h
  rw [Bool.and_eq_true, Bool.and_eq_true] at h
  obtain ⟨⟨h1, h2⟩, h3⟩ := h
  rw [List.all_eq_true] at h3
  refine ⟨h1, by simpa using h2, ?_⟩
  intro kv hkv
  have h0 := h3 kv hkv
  cases hg : res.get? kv.2 with
  | none => rw [hg] at h0; cases h0
  | some child =>
    rw [hg] at h0
    have h0b : (if child.isFile = true then
        ((dk.contentOf child.path).isSome &&
          ((dk.sidecarAt p).getD []).any (fun e => e.1 = kv.1))
      else true) = true := h0
    refine ⟨child, rfl, ?_⟩
    intro hf
    rw [if_pos hf, Bool.and_eq_true] at h0b
    exact h0b

/-- Inversion of one successful `save_hashsums` loop step. -/
theorem saveStep_ok_inv {n : Nat} {alg : String} {res : List Node}
    {st : Sidecar × Disk} {kv : String × Nat} {st1 : Sidecar × Disk}
    (hok : saveStep n alg res st kv = Except.ok st1) :
    ∃ child, res.get? kv.2 = some child ∧
      ((child.isFile = true ∧ ∃ c s2,
          st.2.contentOf child.path = some c ∧
          scSetHash st.1 kv.1 alg (digestOf c) = Except.ok s2 ∧
          st1 = (s2, st.2)) ∨
       (child.isFile = false ∧ ∃ dk2,
          saveHS n st.2 alg child = Except.ok dk2 ∧ st1 = (st.1, dk2))) := by
  unfold saveStep at hok
  cases hg : res.get? kv.2 with
  | none => rw [hg] at hok; cases hok
  | some child =>
    rw [hg] at hok
    have hok2 : (if child.isFile then
        (match st.2.contentOf child.path with
         | none => Except.error PyErr.ioErr
         | some c =>
           match scSetHash st.1 kv.1 alg (digestOf c) with
           | Except.error e => Except.error e
           | Except.ok sc2 => Except.ok ((sc2, st.2) : Sidecar × Disk))
      else
        (match saveHS n st.2 alg child with
         | Except.error e => Except.error e
         | Except.ok dk2 => Except.ok ((st.1, dk2) : Sidecar × Disk)))
        = Except.ok st1 := hok
    refine ⟨child, rfl, ?_⟩
    by_cases hf : child.isFile = true
    · left
      rw [if_pos hf] at hok2
      cases hc : st.2.contentOf child.path with
      | none => rw [hc] at hok2; cases hok2
      | some c =>
        rw [hc] at hok2
        have hok3 : (match scSetHash st.1 kv.1 alg (digestOf c) with
            | Except.error e => Except.error e
            | Except.ok sc2 => Except.ok ((sc2, st.2) : Sidecar × Disk))
            = Except.ok st1 := hok2
        cases hset : scSetHash st.1 kv.1 alg (digestOf c) with
        | error e => rw [hset] at hok3; cases hok3
        | ok s2 =>
          rw [hset] at hok3
          have hok4 : Except.ok ((s2, st.2) : Sidecar × Disk)
              = Except.ok st1 := hok3
          injection hok4 with h5
          exact ⟨hf, c, s2, rfl, hset, h5.symm⟩
    · right
      simp only [Bool.not_eq_true] at hf
      rw [hf] at hok2
      simp only [Bool.false_eq_true, if_false] at hok2
      cases hsub : saveHS n st.2 alg child with
      | error e => rw [hsub] at hok2; cases hok2
      | ok dk2 =>
        rw [hsub] at hok2
        have hok4 : Except.ok ((st.1, dk2) : Sidecar × Disk)
            = Except.ok st1 := hok2
        injection hok4 with h5
        exact ⟨hf, dk2, rfl, h5.symm⟩

/-- What the `save_hashsums` loop does to the sidecar accumulator and the
disk, relative to the disk `dk` the enclosing call started from. -/
theorem saveFold_spec (n : Nat) (dk : Disk) (alg : String) (res : List Node)
    (halg : alg = "md5" ∨ alg = "sha1")
    (IH : ∀ (dkA : Disk) (c : Node) (dk2 : Disk),
      saveHS n dkA alg c = Except.ok dk2 →
      wfHash n dkA c = true →
      ((reachDirs n c).map Node.path).Nodup →
      dk2.dfiles = dkA.dfiles ∧ dk2.ddirs = dkA.ddirs ∧
      (∀ q, q ∉ (reachDirs n c).map Node.path →
        dk2.sidecarAt q = dkA.sidecarAt q) ∧
      (∀ d ∈ reachDirs n c,
        dk2.sidecarAt d.path
          = some (scAugmented alg dkA d.resOf d.alsOf
              ((dkA.sidecarAt d.path).getD [])))) :
    ∀ (todo : List (String × Nat)) (scAcc : Sidecar) (dkAcc : Disk)
      (st : Sidecar × Disk),
      exFold (saveStep n alg res) (scAcc, dkAcc) todo = Except.ok st →
      dkAcc.dfiles = dk.dfiles →
      dkAcc.ddirs = dk.ddirs →
      todoWfB n dk res todo = true →
      ((todoDirs n res todo).map Node.path).Nodup →
      (∀ q, q ∈ (todoDirs n res todo).map Node.path →
        dkAcc.sidecarAt q = dk.sidecarAt q) →
      st.2.dfiles = dk.dfiles ∧ st.2.ddirs = dk.ddirs ∧
      (∀ q, q ∉ (todoDirs n res todo).map Node.path →
        st.2.sidecarAt q = dkAcc.sidecarAt q) ∧
      (∀ d ∈ todoDirs n res todo,
        st.2.sidecarAt d.path
          = some (scAugmented alg dk d.resOf d.alsOf
              ((dk.sidecarAt d.path).getD []))) ∧
      st.1 = scAugmented alg dk res todo scAcc := by
  intro todo
  induction todo with
  | nil =>
    intro scAcc dkAcc st hfold hdf hdd hwf hnd hframe
    have h2 : (Except.ok ((scAcc, dkAcc) : Sidecar × Disk)
        : Except PyErr (Sidecar × Disk)) = Except.ok st := hfold
    injection h2 with h3
    subst h3
    refine ⟨hdf, hdd, fun q _ => rfl, ?_, rfl⟩
    intro d hd
    rw [todoDirs_nil] at hd
    cases hd
  | cons kv rest ihr =>
    intro scAcc dkAcc st hfold hdf hdd hwf hnd hframe
    rw [exFold_cons] at hfold
    have hfold2 := hfold
    cases hstep : saveStep n alg res (scAcc, dkAcc) kv with
    | error e => rw [hstep] at hfold2; cases hfold2
    | ok st1 =>
      rw [hstep] at hfold2
      have hrest : exFold (saveStep n alg res) st1 rest = Except.ok st :=
        hfold2
      obtain ⟨child, hg, hcase⟩ := saveStep_ok_inv hstep
      unfold todoWfB at hwf
      rw [List.all_cons, Bool.and_eq_true] at hwf
      obtain ⟨hwfHead, hwfRestRaw⟩ := hwf
      have hwfRest : todoWfB n dk res rest = true := hwfRestRaw
      rcases hcase with ⟨hf, c, s2, hc, hset, hst1⟩ | ⟨hf, dk2, hsub, hst1⟩
      · -- file child: disk untouched, the sidecar accumulator advances
        subst hst1
        have hX : (match res.get? kv.2 with
            | some c0 => if c0.isFile then [] else reachDirs n c0
            | none => []) = ([] : List Node) := by
          rw [hg]
          simp [hf]
        have hTD : todoDirs n res (kv :: rest) = todoDirs n res rest := by
          rw [todoDirs_cons, hX, List.nil_append]
        rw [hTD] at hnd hframe
        obtain ⟨hr1, hr2, hr3, hr4, hr5⟩ :=
          ihr s2 dkAcc st hrest hdf hdd hwfRest hnd hframe
        refine ⟨hr1, hr2, ?_, ?_, ?_⟩
        · intro q hq
          rw [hTD] at hq
          exact hr3 q hq
        · intro d hd
          rw [hTD] at hd
          exact hr4 d hd
        · have hstep2 : scAugStep alg dk res scAcc kv = s2 := by
            refine scAugStep_file_ok scAcc hg hf ?_ hset
            rw [← contentOf_congr hdf child.path]
            exact hc
          rw [scAugmented_cons, hstep2]
          exact hr5
      · -- directory child: the recursion augments its whole subtree
        subst hst1
        have hX : (match res.get? kv.2 with
            | some c0 => if c0.isFile then [] else reachDirs n c0
            | none => []) = reachDirs n child := by
          rw [hg]
          simp [hf]
        have hTD : todoDirs n res (kv :: rest)
            = reachDirs n child ++ todoDirs n res rest := by
          rw [todoDirs_cons, hX]
        rw [hTD, List.map_append] at hnd
        have hnd1 := (List.nodup_append.mp hnd).1
        have hnd2 := (List.nodup_append.mp hnd).2.1
        have hdisj := (List.nodup_append.mp hnd).2.2
        have hwfChildDk : wfHash n dk child = true := by
          have hH : (match res.get? kv.2 with
              | none => true
              | some c0 => if c0.isFile then true else wfHash n dk c0)
              = true := hwfHead
          rw [hg] at hH
          have hH2 : (if child.isFile then true else wfHash n dk child)
              = true := hH
          rw [hf] at hH2
          simpa using hH2
        have hframeChild : ∀ q ∈ (reachDirs n child).map Node.path,
            dkAcc.sidecarAt q = dk.sidecarAt q := by
          intro q hq
          refine hframe q ?_
          rw [hTD, List.map_append]
          exact List.mem_append_left _ hq
        have hwfChildAcc : wfHash n dkAcc child = true := by
          rw [wfHash_congr n child hdf hframeChild]
          exact hwfChildDk
        obtain ⟨hi1, hi2, hi3, hi4⟩ := IH dkAcc child dk2 hsub hwfChildAcc hnd1
        have hframeRest : ∀ q ∈ (todoDirs n res rest).map Node.path,
            dk2.sidecarAt q = dk.sidecarAt q := by
          intro q hq
          have hq1 : q ∉ (reachDirs n child).map Node.path :=
            fun hq2 => (List.disjoint_left.mp hdisj) hq2 hq
          rw [hi3 q hq1]
          refine hframe q ?_
          rw [hTD, List.map_append]
          exact List.mem_append_right _ hq
        obtain ⟨hr1, hr2, hr3, hr4, hr5⟩ :=
          ihr scAcc dk2 st hrest (hi1.trans hdf) (hi2.trans hdd) hwfRest hnd2
            hframeRest
        refine ⟨hr1, hr2, ?_, ?_, ?_⟩
        · intro q hq
          rw [hTD, List.map_append] at hq
          have hqL : q ∉ (reachDirs n child).map Node.path :=
            fun h => hq (List.mem_append_left _ h)
          have hqR : q ∉ (todoDirs n res rest).map Node.path :=
            fun h => hq (List.mem_append_right _ h)
          rw [hr3 q hqR, hi3 q hqL]
        · intro d hd
          rw [hTD] at hd
          rcases List.mem_append.mp hd with hdl | hdr
          · have hdp : d.path ∈ (reachDirs n child).map Node.path :=
              List.mem_map.mpr ⟨d, hdl, rfl⟩
            have hdpR : d.path ∉ (todoDirs n res rest).map Node.path :=
              fun h => (List.disjoint_left.mp hdisj) hdp h
            rw [hr3 d.path hdpR, hi4 d hdl]
            rw [scAugmented_congr hdf alg d.resOf, hframeChild d.path hdp]
          · exact hr4 d hdr
        · rw [scAugmented_cons, scAugStep_dir scAcc hg hf]
          exact hr5

/-- `save_hashsums` characterized: it keeps files and directories intact,
touches no sidecar outside the visited subtree, and overwrites the sidecar
of every visited directory with its augmented version (file entries carry
the digest of the current contents). -/
theorem saveHS_spec :
    ∀ (fuel : Nat) (dk : Disk) (alg : String) (nd : Node) (dk1 : Disk),
      saveHS fuel dk alg nd = Except.ok dk1 →
      (alg = "md5" ∨ alg = "sha1") →
      wfHash fuel dk nd = true →
      ((reachDirs fuel nd).map Node.path).Nodup →
      dk1.dfiles = dk.dfiles ∧ dk1.ddirs = dk.ddirs ∧
      (∀ q, q ∉ (reachDirs fuel nd).map Node.path →
        dk1.sidecarAt q = dk.sidecarAt q) ∧
      (∀ d ∈ reachDirs fuel nd,
        dk1.sidecarAt d.path
          = some (scAugmented alg dk d.resOf d.alsOf
              ((dk.sidecarAt d.path).getD []))) := by
  intro fuel
  induction fuel with
  | zero => intro dk alg nd dk1 hok; cases hok
  | succ n ih =>
    intro dk alg nd dk1 hok halg hwf hnd
    match nd with
    | Node.file u p mo t =>
      have h2 : (Except.ok dk : Except PyErr Disk) = Except.ok dk1 := hok
      injection h2 with h3
      subst h3
      refine ⟨rfl, rfl, fun q _ => rfl, ?_⟩
      intro d hd
      exact absurd hd (List.not_mem_nil d)
    | Node.dir u p mo t res als =>
      obtain ⟨hdirWf, hkids, htodoWf⟩ := wfHash_dir_parts hwf
      obtain ⟨hscSome, hndKeys, hitems⟩ := dirWfB_parts hdirWf
      rw [Option.isSome_iff_exists] at hscSome
      obtain ⟨sc, hsc⟩ := hscSome
      rw [saveHS_succ_dir, hsc] at hok
      have hok2 : (if alg = "md5" ∨ alg = "sha1" then
          (match exFold (saveStep n alg res) ((sc, dk) : Sidecar × Disk) als with
           | Except.error e => Except.error e
           | Except.ok st => Except.ok (st.2.sidecarWrite p st.1))
        else Except.ok (dk.sidecarWrite p sc)) = Except.ok dk1 := hok
      rw [if_pos halg] at hok2
      cases hfold : exFold (saveStep n alg res) ((sc, dk) : Sidecar × Disk) als with
      | error e => rw [hfold] at hok2; cases hok2
      | ok stFin =>
        rw [hfold] at hok2
        have hok3 : Except.ok (stFin.2.sidecarWrite p stFin.1)
            = Except.ok dk1 := hok2
        injection hok3 with h4
        subst h4
        rw [reachDirs_succ, List.map_cons] at hnd
        have hpNot : p ∉ (todoDirs n res als).map Node.path :=
          (List.nodup_cons.mp hnd).1
        have hndT : ((todoDirs n res als).map Node.path).Nodup :=
          (List.nodup_cons.mp hnd).2
        obtain ⟨hf1, hf2, hf3, hf4, hf5⟩ :=
          saveFold_spec n dk alg res halg
            (fun dkA c dk2 hs hw hn => ih dkA alg c dk2 hs halg hw hn)
            als sc dk stFin hfold rfl rfl htodoWf hndT (fun q _ => rfl)
        refine ⟨?_, ?_, ?_, ?_⟩
        · rw [sidecarWrite_dfiles]; exact hf1
        · rw [sidecarWrite_ddirs]; exact hf2
        · intro q hq
          rw [reachDirs_succ, List.map_cons] at hq
          have hqp : q ≠ p := fun h => hq (h ▸ List.mem_cons_self _ _)
          have hqT : q ∉ (todoDirs n res als).map Node.path :=
            fun h => hq (List.mem_cons_of_mem _ h)
          rw [sidecarAt_write_other _ p q _ hqp, hf3 q hqT]
        · intro d hd
          rw [reachDirs_succ] at hd
          rcases List.mem_cons.mp hd with hdEq | hdT
          · subst hdEq
            rw [show Node.path (Node.dir u p mo t res als) = p from rfl]
            rw [sidecarAt_write_self, hf5, hsc]
            rfl
          · have hdp : d.path ∈ (todoDirs n res als).map Node.path :=
              List.mem_map.mpr ⟨d, hdT, rfl⟩
            have hdne : d.path ≠ p := fun h => hpNot (h ▸ hdp)
            rw [sidecarAt_write_other _ p d.path _ hdne]
            exact hf4 d hdT

/-- Alias indexes resolve throughout the visited subtree (and the fuel
covers its depth). -/
def idxOk (fuel : Nat) (nd : Node) : Bool :=
  match fuel with
  | 0 => false
  | n + 1 =>
    match nd with
    | Node.file .. => true
    | Node.dir _ _ _ _ res als =>
        als.all (fun kv =>
          match res.get? kv.2 with
          | none => false
          | some c => if c.isFile then true else idxOk n c)

theorem idxOk_dir_parts {n : Nat} {u : Nat} {p : FPath} {mo : Nat}
    {t : Bool} {res : List Node} {als : List (String × Nat)}
    (h : idxOk (n + 1) (Node.dir u p mo t res als) = true) :
    ∀ kv ∈ als, ∃ child, res.get? kv.2 = some child ∧
      (child.isFile = true ∨ idxOk n child = true) := by
  have h2 : als.all (fun kv =>
      match res.get? kv.2 with
      | none => false
      | some c => if c.isFile then true else idxOk n c) = true := h
  rw [List.all_eq_true] at h2
  intro kv hkv
  have h0 := h2 kv hkv
  cases hg : res.get? kv.2 with
  | none => rw [hg] at h0; cases h0
  | some child =>
    rw [hg] at h0
    have h0b : (if child.isFile then true else idxOk n child) = true := h0
    by_cases hf : child.isFile = true
    · exact ⟨child, rfl, Or.inl hf⟩
    · rw [if_neg hf] at h0b
      exact ⟨child, rfl, Or.inr h0b⟩

theorem wfHash_idxOk :
    ∀ (fuel : Nat) (dk : Disk) (nd : Node),
      wfHash fuel dk nd = true → idxOk fuel nd = true := by
  intro fuel
  induction fuel with
  | zero => intro dk nd h; cases h
  | succ n ih =>
    intro dk nd h
    match nd with
    | Node.file u p mo t => rfl
    | Node.dir u p mo t res als =>
      obtain ⟨hdirWf, hkids, _⟩ := wfHash_dir_parts h
      show als.all (fun kv =>
        match res.get? kv.2 with
        | none => false
        | some c => if c.isFile then true else idxOk n c) = true
      rw [List.all_eq_true]
      intro kv hkv
      obtain ⟨child, hg, hcase⟩ := hkids kv hkv
      rw [hg]
      show (if child.isFile then true else idxOk n child) = true
      by_cases hf : child.isFile = true
      · rw [if_pos hf]
      · rw [if_neg hf]
        rcases hcase with hcf | hcw
        · exact absurd hcf hf
        · exact ih dk child hcw

/-- The sidecar condition the drift check needs: every visited directory has
a sidecar whose file entries store the digest of the `old` contents. -/
def H1P (fuel : Nat) (dkC : Disk) (alg : String) (old : FPath → Nat)
    (nd : Node) : Prop :=
  ∀ d ∈ reachDirs fuel nd, ∃ sc, dkC.sidecarAt d.path = some sc ∧
    ∀ a i child, (a, i) ∈ d.alsOf → d.resOf.get? i = some child →
      child.isFile = true →
      scGetHash sc a alg = Except.ok (digestOf (old child.path))

/-- The content condition: every visited file currently holds the `new`
contents. -/
def H2P (fuel : Nat) (dkC : Disk) (new : FPath → Nat) (nd : Node) : Prop :=
  ∀ g ∈ reachFiles fuel nd, dkC.contentOf g.path = some (new g.path)

theorem H1P_child {n : Nat} {dkC : Disk} {alg : String} {old : FPath → Nat}
    {u : Nat} {p : FPath} {mo : Nat} {t : Bool} {res : List Node}
    {als : List (String × Nat)} {kv : String × Nat} {child : Node}
    (h : H1P (n + 1) dkC alg old (Node.dir u p mo t res als))
    (hkv : kv ∈ als) (hg : res.get? kv.2 = some child)
    (hf : child.isFile = false) : H1P n dkC alg old child := by
  intro d hd
  refine h d ?_
  rw [reachDirs_succ]
  exact List.mem_cons_of_mem _ (mem_todoDirs_of_child hkv hg hf hd)

theorem H2P_child {n : Nat} {dkC : Disk} {new : FPath → Nat}
    {u : Nat} {p : FPath} {mo : Nat} {t : Bool} {res : List Node}
    {als : List (String × Nat)} {kv : String × Nat} {child : Node}
    (h : H2P (n + 1) dkC new (Node.dir u p mo t res als))
    (hkv : kv ∈ als) (hg : res.get? kv.2 = some child)
    (hf : child.isFile = false) : H2P n dkC new child := by
  intro g hg2
  refine h g ?_
  rw [reachFiles_succ]
  exact mem_todoFiles_of_dir_child hkv hg hf hg2

theorem checkStep_file_ok {n : Nat} {dkC : Disk} {alg : String}
    {res : List Node} {sc : Sidecar} {kv : String × Nat} {child : Node}
    {stored c : Nat} (acc : List Node)
    (hg : res.get? kv.2 = some child) (hf : child.isFile = true)
    (hget : scGetHash sc kv.1 alg = Except.ok stored)
    (hc : dkC.contentOf child.path = some c) :
    checkStep n dkC alg res sc acc kv
      = Except.ok (if stored ≠ digestOf c then acc ++ [child] else acc) := by
  unfold checkStep
  rw [hg]
  simp [hf, hget, hc]

theorem checkStep_dir {n : Nat} {dkC : Disk} {alg : String}
    {res : List Node} {sc : Sidecar} {kv : String × Nat} {child : Node}
    (acc : List Node)
    (hg : res.get? kv.2 = some child) (hf : child.isFile = false) :
    checkStep n dkC alg res sc acc kv = checkHS n dkC alg child acc := by
  unfold checkStep
  rw [hg]
  simp [hf]

/-- What the `check_hashsums` loop returns, given sidecars storing digests
of the `old` contents while the disk holds the `new` contents. -/
theorem checkFold_spec (n : Nat) (dkC : Disk) (alg : String)
    (res : List Node) (als : List (String × Nat)) (sc : Sidecar)
    (old new : FPath → Nat)
    (IH : ∀ (c : Node) (acc : List Node),
      H1P n dkC alg old c → H2P n dkC new c → idxOk n c = true →
      checkHS n dkC alg c acc
        = Except.ok (acc ++ (reachFiles n c).filter
            (fun g => decide (digestOf (old g.path) ≠ digestOf (new g.path)))))
    (hGet : ∀ kv ∈ als, ∀ child, res.get? kv.2 = some child →
      child.isFile = true →
      scGetHash sc kv.1 alg = Except.ok (digestOf (old child.path)))
    (hCont : ∀ g ∈ todoFiles n res als,
      dkC.contentOf g.path = some (new g.path))
    (hIdx : ∀ kv ∈ als, ∃ child, res.get? kv.2 = some child ∧
      (child.isFile = true ∨ idxOk n child = true))
    (hH1c : ∀ kv ∈ als, ∀ child, res.get? kv.2 = some child →
      child.isFile = false → H1P n dkC alg old child)
    (hH2c : ∀ kv ∈ als, ∀ child, res.get? kv.2 = some child →
      child.isFile = false → H2P n dkC new child) :
    ∀ (todo : List (String × Nat)), (∀ kv ∈ todo, kv ∈ als) →
      ∀ (acc : List Node),
      exFold (checkStep n dkC alg res sc) acc todo
        = Except.ok (acc ++ (todoFiles n res todo).filter
            (fun g => decide (digestOf (old g.path) ≠ digestOf (new g.path)))) := by
  intro todo
  induction todo with
  | nil =>
    intro hsub acc
    rw [exFold_nil, todoFiles_nil]
    simp
  | cons kv rest ihr =>
    intro hsub acc
    have hkv : kv ∈ als := hsub kv (List.mem_cons_self _ _)
    have hsubR : ∀ x ∈ rest, x ∈ als :=
      fun x hx => hsub x (List.mem_cons_of_mem _ hx)
    obtain ⟨child, hg, hcase⟩ := hIdx kv hkv
    rw [exFold_cons]
    by_cases hf : child.isFile = true
    · have hget := hGet kv hkv child hg hf
      have hcont : dkC.contentOf child.path = some (new child.path) :=
        hCont child (mem_todoFiles_of_file_child hkv hg hf)
      rw [checkStep_file_ok acc hg hf hget hcont]
      have hXf : (match res.get? kv.2 with
          | some c0 => if c0.isFile then [c0] else reachFiles n c0
          | none => []) = [child] := by
        rw [hg]; simp [hf]
      rw [todoFiles_cons, hXf, List.filter_append]
      show exFold (checkStep n dkC alg res sc)
          (if digestOf (old child.path) ≠ digestOf (new child.path)
           then acc ++ [child] else acc) rest = _
      rw [ihr hsubR _]
      by_cases hmis : digestOf (old child.path) ≠ digestOf (new child.path)
      · rw [if_pos hmis]
        congr 1
        rw [List.append_assoc]
        congr 1
        have : List.filter
            (fun g => decide (digestOf (old g.path) ≠ digestOf (new g.path)))
            [child] = [child] := by
          simp [hmis]
        rw [this]
      · rw [if_neg hmis]
        congr 1
        have : List.filter
            (fun g => decide (digestOf (old g.path) ≠ digestOf (new g.path)))
            [child] = [] := by
          simp at hmis
          simp [hmis]
        rw [this, List.nil_append]
    · have hfb : child.isFile = false := by
        cases hcf : child.isFile
        · rfl
        · exact absurd hcf hf
      have hidxc : idxOk n child = true := by
        rcases hcase with hcf | hcw
        · exact absurd hcf hf
        · exact hcw
      rw [checkStep_dir acc hg hfb]
      rw [IH child acc (hH1c kv hkv child hg hfb) (hH2c kv hkv child hg hfb)
        hidxc]
      have hXf : (match res.get? kv.2 with
          | some c0 => if c0.isFile then [c0] else reachFiles n c0
          | none => []) = reachFiles n child := by
        rw [hg]; simp [hfb]
      rw [todoFiles_cons, hXf, List.filter_append]
      show exFold (checkStep n dkC alg res sc)
          (acc ++ (reachFiles n child).filter
            (fun g => decide (digestOf (old g.path) ≠ digestOf (new g.path))))
          rest = _
      rw [ihr hsubR _]
      rw [List.append_assoc]

/-- `check_hashsums` characterized: with every visited sidecar storing the
digests of the `old` contents and the disk holding the `new` contents, the
call succeeds and appends exactly the visited files whose stored digest
disagrees with the recomputed one. -/
theorem checkHS_spec :
    ∀ (fuel : Nat) (dkC : Disk) (alg : String) (old new : FPath → Nat)
      (nd : Node) (acc : List Node),
      (alg = "md5" ∨ alg = "sha1") →
      H1P fuel dkC alg old nd →
      H2P fuel dkC new nd →
      idxOk fuel nd = true →
      checkHS fuel dkC alg nd acc
        = Except.ok (acc ++ (reachFiles fuel nd).filter
            (fun g => decide (digestOf (old g.path) ≠ digestOf (new g.path)))) := by
  intro fuel
  induction fuel with
  | zero => intro dkC alg old new nd acc halg h1 h2 hidx; cases hidx
  | succ n ih =>
    intro dkC alg old new nd acc halg h1 h2 hidx
    match nd with
    | Node.file u p mo t =>
      show Except.ok acc = _
      simp [reachFiles]
    | Node.dir u p mo t res als =>
      obtain ⟨sc, hsc, hGetAll⟩ := h1 (Node.dir u p mo t res als)
        (by rw [reachDirs_succ]; exact List.mem_cons_self _ _)
      rw [checkHS_succ_dir]
      rw [show Node.path (Node.dir u p mo t res als) = p from rfl] at hsc
      rw [hsc]
      show (if alg = "md5" ∨ alg = "sha1" then
          exFold (checkStep n dkC alg res sc) acc als
        else Except.ok acc) = _
      rw [if_pos halg]
      have hGet : ∀ kv ∈ als, ∀ child, res.get? kv.2 = some child →
          child.isFile = true →
          scGetHash sc kv.1 alg = Except.ok (digestOf (old child.path)) := by
        intro kv hkv child hg hf
        exact hGetAll kv.1 kv.2 child hkv hg hf
      have hCont : ∀ g ∈ todoFiles n res als,
          dkC.contentOf g.path = some (new g.path) := by
        intro g hgm
        refine h2 g ?_
        rw [reachFiles_succ]
        exact hgm
      have hIdx := idxOk_dir_parts hidx
      have hres := checkFold_spec n dkC alg res als sc old new
        (fun c acc2 hc1 hc2 hc3 => ih dkC alg old new c acc2 halg hc1 hc2 hc3)
        hGet hCont hIdx
        (fun kv hkv child hg hf => H1P_child h1 hkv hg hf)
        (fun kv hkv child hg hf => H2P_child h2 hkv hg hf)
        als (fun kv hkv => hkv) acc
      rw [hres, reachFiles_succ]

theorem mem_todoDirs_inv {n : Nat} {res : List Node}
    {todo : List (String × Nat)} {x : Node} (hx : x ∈ todoDirs n res todo) :
    ∃ kv ∈ todo, ∃ c, res.get? kv.2 = some c ∧ c.isFile = false ∧
      x ∈ reachDirs n c := by
  unfold todoDirs at hx
  rw [List.mem_flatMap] at hx
  obtain ⟨kv, hkv, hx2⟩ := hx
  cases hg : res.get? kv.2 with
  | none =>
    rw [hg] at hx2
    have hx3 : x ∈ ([] : List Node) := hx2
    cases hx3
  | some c =>
    rw [hg] at hx2
    have hx3 : x ∈ (if c.isFile then [] else reachDirs n c) := hx2
    by_cases hf : c.isFile = true
    · rw [if_pos hf] at hx3
      cases hx3
    · rw [if_neg hf] at hx3
      simp only [Bool.not_eq_true] at hf
      exact ⟨kv, hkv, c, hg, hf, hx3⟩

theorem mem_todoFiles_inv {n : Nat} {res : List Node}
    {todo : List (String × Nat)} {x : Node} (hx : x ∈ todoFiles n res todo) :
    ∃ kv ∈ todo, ∃ c, res.get? kv.2 = some c ∧
      ((c.isFile = true ∧ x = c) ∨ (c.isFile = false ∧ x ∈ reachFiles n c)) := by
  unfold todoFiles at hx
  rw [List.mem_flatMap] at hx
  obtain ⟨kv, hkv, hx2⟩ := hx
  cases hg : res.get? kv.2 with
  | none =>
    rw [hg] at hx2
    have hx3 : x ∈ ([] : List Node) := hx2
    cases hx3
  | some c =>
    rw [hg] at hx2
    have hx3 : x ∈ (if c.isFile then [c] else reachFiles n c) := hx2
    by_cases hf : c.isFile = true
    · rw [if_pos hf] at hx3
      exact ⟨kv, hkv, c, hg, Or.inl ⟨hf, List.mem_singleton.mp hx3⟩⟩
    · rw [if_neg hf] at hx3
      simp only [Bool.not_eq_true] at hf
      exact ⟨kv, hkv, c, hg, Or.inr ⟨hf, hx3⟩⟩

/-- Every visited directory of a well-formed tree satisfies the
per-directory conditions. -/
theorem wfHash_reach_dirWfB :
    ∀ (fuel : Nat) (dk : Disk) (nd : Node), wfHash fuel dk nd = true →
      ∀ d ∈ reachDirs fuel nd, dirWfB dk d.path d.resOf d.alsOf = true := by
  intro fuel
  induction fuel with
  | zero => intro dk nd h; cases h
  | succ n ih =>
    intro dk nd h d hd
    match nd with
    | Node.file u p mo t => cases hd
    | Node.dir u p mo t res als =>
      obtain ⟨hdirWf, hkids, _⟩ := wfHash_dir_parts h
      rw [reachDirs_succ] at hd
      rcases List.mem_cons.mp hd with he | he
      · subst he
        exact hdirWf
      · obtain ⟨kv, hkv, c, hg, hcf, hdc⟩ := mem_todoDirs_inv he
        obtain ⟨c2, hg2, hcase⟩ := hkids kv hkv
        rw [hg] at hg2
        injection hg2 with hg3
        subst hg3
        rcases hcase with hcf2 | hcw
        · rw [hcf] at hcf2; cases hcf2
        · exact ih dk c hcw d hdc

/-- Every visited file of a well-formed tree is a file node with bytes on
disk. -/
theorem wfHash_reach_file :
    ∀ (fuel : Nat) (dk : Disk) (nd : Node), wfHash fuel dk nd = true →
      ∀ g ∈ reachFiles fuel nd,
        g.isFile = true ∧ (dk.contentOf g.path).isSome = true := by
  intro fuel
  induction fuel with
  | zero => intro dk nd h; cases h
  | succ n ih =>
    intro dk nd h g hg
    match nd with
    | Node.file u p mo t => cases hg
    | Node.dir u p mo t res als =>
      obtain ⟨hdirWf, hkids, _⟩ := wfHash_dir_parts h
      obtain ⟨_, _, hitems⟩ := dirWfB_parts hdirWf
      rw [reachFiles_succ] at hg
      obtain ⟨kv, hkv, c, hgc, hcase⟩ := mem_todoFiles_inv hg
      rcases hcase with ⟨hcf, hxc⟩ | ⟨hcf, hxc⟩
      · subst hxc
        obtain ⟨c2, hg2, hco⟩ := hitems kv hkv
        rw [hgc] at hg2
        injection hg2 with hg3
        subst hg3
        exact ⟨hcf, (hco hcf).1⟩
      · obtain ⟨c2, hg2, hcase2⟩ := hkids kv hkv
        rw [hgc] at hg2
        injection hg2 with hg3
        subst hg3
        rcases hcase2 with hcf2 | hcw
        · rw [hcf] at hcf2; cases hcf2
        · exact ih dk c hcw g hxc

theorem filter_path_singleton :
    ∀ (l : List Node) (f : Node), f ∈ l → ((l.map Node.path).Nodup) →
      l.filter (fun g => decide (g.path = f.path)) = [f] := by
  intro l
  induction l with
  | nil => intro f hf; cases hf
  | cons y ys ih =>
    intro f hf hnd
    rw [List.map_cons, List.nodup_cons] at hnd
    obtain ⟨hy, hnd2⟩ := hnd
    rcases List.mem_cons.mp hf with he | he
    · subst he
      rw [List.filter_cons_of_pos (by simp)]
      have hrest : ys.filter (fun g => decide (g.path = f.path)) = [] := by
        rw [List.filter_eq_nil_iff]
        intro a ha hpa
        simp only [decide_eq_true_eq] at hpa
        exact hy (hpa ▸ List.mem_map.mpr ⟨a, ha, rfl⟩)
      rw [hrest]
    · have hne2 : ¬ (y.path = f.path) := by
        intro h
        exact hy (h ▸ List.mem_map.mpr ⟨f, he, rfl⟩)
      rw [List.filter_cons_of_neg (by simpa using hne2)]
      exact ih f he hnd2

/-- The contents before the external mutation (as recorded by the digests
`save_hashsums` stored). -/
def oldContent (dk : Disk) (q : FPath) : Nat := (dk.contentOf q).getD 0

/-- The contents after one tracked file (at `fp`) is overwritten with
`cNew`. -/
def newContent (dk : Disk) (fp : FPath) (cNew : Nat) (q : FPath) : Nat :=
  if q = fp then cNew else oldContent dk q

/-- C6: `save_hashsums` walks the subtree and records a digest for every
aliased file; if a tracked file's bytes then change on disk,
`check_hashsums` over the same subtree (with a fresh accumulator) returns
exactly the drifted file object and no others. -/
theorem c6_drift_detection (fuel : Nat) (dk : Disk) (nd : Node) (dk1 : Disk)
    (f : Node) (c0 cNew : Nat)
    (hwf : wfHash fuel dk nd = true)
    (hndD : ((reachDirs fuel nd).map Node.path).Nodup)
    (hndF : ((reachFiles fuel nd).map Node.path).Nodup)
    (hsave : saveHS fuel dk "md5" nd = Except.ok dk1)
    (hf : f ∈ reachFiles fuel nd)
    (hc0 : dk.contentOf f.path = some c0)
    (hne : cNew ≠ c0) :
    checkHS fuel (dk1.setContent f.path cNew) "md5" nd [] = Except.ok [f] := by
  have halg : ("md5" : String) = "md5" ∨ ("md5" : String) = "sha1" :=
    Or.inl rfl
  obtain ⟨hs1, hs2, hs3, hs4⟩ :=
    saveHS_spec fuel dk "md5" nd dk1 hsave halg hwf hndD
  have H1 : H1P fuel (dk1.setContent f.path cNew) "md5" (oldContent dk) nd := by
    intro d hd
    have hwfd := wfHash_reach_dirWfB fuel dk nd hwf d hd
    obtain ⟨hscSome, hkeys, hitems⟩ := dirWfB_parts hwfd
    obtain ⟨sc_d, hsc_d⟩ := Option.isSome_iff_exists.mp hscSome
    refine ⟨scAugmented "md5" dk d.resOf d.alsOf sc_d, ?_, ?_⟩
    · rw [setContent_sidecarAt, hs4 d hd, hsc_d]
      rfl
    · intro a i child hmem hgi hfi
      obtain ⟨child2, hgi2, hco⟩ := hitems (a, i) hmem
      have hgi2b : d.resOf.get? i = some child2 := hgi2
      rw [hgi] at hgi2b
      injection hgi2b with hgi3
      subst hgi3
      obtain ⟨hcs, hkey⟩ := hco hfi
      obtain ⟨cv, hcv⟩ := Option.isSome_iff_exists.mp hcs
      rw [hsc_d] at hkey
      have hkey2 : sc_d.any (fun kv => kv.1 = a) = true := hkey
      have holdv : oldContent dk child.path = cv := by
        unfold oldContent
        rw [hcv]
        rfl
      rw [holdv]
      exact scAugmented_get "md5" halg dk d.resOf a i child cv hgi hfi hcv
        d.alsOf sc_d hmem hkeys hkey2
  have H2 : H2P fuel (dk1.setContent f.path cNew)
      (newContent dk f.path cNew) nd := by
    intro g hg
    obtain ⟨hgf, hgc⟩ := wfHash_reach_file fuel dk nd hwf g hg
    by_cases hqp : g.path = f.path
    · have hsome1 : (dk1.contentOf f.path).isSome = true := by
        rw [contentOf_congr hs1 f.path, hc0]
        rfl
      rw [hqp, contentOf_setContent_self dk1 f.path cNew hsome1]
      simp [newContent]
    · rw [contentOf_setContent_other dk1 f.path g.path cNew hqp,
        contentOf_congr hs1 g.path]
      obtain ⟨cv, hcv⟩ := Option.isSome_iff_exists.mp hgc
      rw [hcv]
      simp [newContent, oldContent, hqp, hcv]
  have hidx : idxOk fuel nd = true := wfHash_idxOk fuel dk nd hwf
  rw [checkHS_spec fuel (dk1.setContent f.path cNew) "md5" (oldContent dk)
    (newContent dk f.path cNew) nd [] halg H1 H2 hidx]
  have hcong : ∀ g ∈ reachFiles fuel nd,
      (decide (digestOf (oldContent dk g.path)
        ≠ digestOf (newContent dk f.path cNew g.path)))
      = (decide (g.path = f.path)) := by
    intro g hg
    by_cases hqp : g.path = f.path
    · have hold : oldContent dk f.path = c0 := by
        unfold oldContent
        rw [hc0]
        rfl
      rw [hqp]
      simp [newContent, digestOf, hold, Ne.symm hne]
    · simp [newContent, oldContent, digestOf, hqp]
  rw [List.nil_append, List.filter_congr hcong,
    filter_path_singleton (reachFiles fuel nd) f hf hndF]

def c6File : Node := Node.file 1 ["r", "f"] 420 false

def c6Tree : Node := Node.dir 0 ["r"] 493 false [c6File] [("f", 0)]

def c6Entry : SEntry :=
  { relp := ["f"], mode := 420, temp := false, isFile := true,
    md5 := none, sha1 := none }

def c6Disk : Disk :=
  { ddirs := [{ path := ["r"], dmode := 493 }],
    dfiles := [{ path := ["r", "f"], fmode := 420, content := 7 }],
    sidecars := [(["r"], [("f", c6Entry)])] }

def c6Disk1 : Disk :=
  match saveHS 2 c6Disk "md5" c6Tree with
  | Except.ok d => d
  | Except.error _ => c6Disk

/-! ### C9: snapshot import (`snappy`) idempotence -/

/-- One `os.walk` finding, as the path of the real entry relative to the
manager's prefix (the argument of `dir_cerator`/`file_creator`, resp. the
`root_binded` `mkdir`/`mkfile`, split at slashes). -/
inductive WEntry where
  | dirE (rel : List String) : WEntry
  | fileE (rel : List String) : WEntry

/-- The `root_binded` alias: the slash-joined relative path itself. -/
def joinSeg (rel : List String) : String := String.intercalate slashStr rel

/-- `self.current_directory[alias]` seen from a container node. -/
def childOf (c : Node) (seg : String) : Option Node :=
  match c with
  | Node.dir _ _ _ _ res als => lookupAlias res als seg
  | _ => none

/-- `dir_cerator(long_path)` (lines 908-916): `mkdir` the head segment,
`cd` into it, recurse on the tail, `up`. -/
def dirCerator : List String → MState → MState
  | [], m => m
  | seg :: rest, m =>
      up (dirCerator rest (cd seg (mkdir seg [seg] 448 false m)))

/-- `file_creator(long_path)` (lines 918-927): descend along the directory
segments, `mkfile` the final segment, then one `up` per recursion level
(the `up` is outside the `if tail:` split, so the base level also ascends;
at the root `up` is a no-op because the root has no parent). -/
def fileCreator : List String → MState → MState
  | [], m => m
  | [seg], m => up (mkfile seg [seg] 384 false m)
  | seg :: rest, m => up (fileCreator rest (cd seg m))

/-- One iteration of the walk loop (lines 929-943): under `root_binded`
the whole relative path becomes both alias and path of a single
`mkdir`/`mkfile` at the current container; otherwise the hierarchical
creators run. -/
def snapStep (rb : Bool) (m : MState) : WEntry → MState
  | WEntry.dirE rel =>
      if rb then mkdir (joinSeg rel) rel 448 false m else dirCerator rel m
  | WEntry.fileE rel =>
      if rb then mkfile (joinSeg rel) rel 384 false m else fileCreator rel m

/-- `FSManager.snappy(root_binded)` (lines 899-943) over the findings `W`
of `os.walk(self.prefix_path)`. -/
def snappyRun (W : List WEntry) (rb : Bool) (m : MState) : MState :=
  W.foldl (snapStep rb) m

/-- The directory at alias `a` of container `c` is registered canonically:
the alias resolves to a directory node whose path extends the container's
by `relp`, the node is the first `==`-equal element of the sequence (so a
re-bind lands on the same index), and every alias entry for `a` already
holds that index. -/
def regDirAt (c : Node) (a : String) (relp : FPath) : Bool :=
  match c with
  | Node.file .. => false
  | Node.dir _ p _ _ res als =>
      match als.find? (fun kv => kv.1 = a) with
      | none => false
      | some kv =>
        match res.get? kv.2 with
        | none => false
        | some n =>
            !n.isFile && (pyIndexOf res n == some kv.2)
              && (n.path == p ++ relp)
              && als.all (fun e => !(e.1 == a) || (e.2 == kv.2))

/-- The alias `a` of container `c` is bound to a file (truthy, so `mkfile`
is a guard no-op). -/
def regFileAt (c : Node) (a : String) : Bool :=
  match childOf c a with
  | some n => n.isFile
  | none => false

/-- Every prefix of the directory chain `rel` is registered canonically
(what run 2 of the hierarchical `dir_cerator` needs along its descent). -/
def regDirChainB : Node → List String → Bool
  | _, [] => true
  | c, seg :: rest =>
      regDirAt c seg [seg] &&
        (match childOf c seg with
         | some n => regDirChainB n rest
         | none => false)

/-- The directory chain of `rel` leads through registered directories to a
registered file alias (what run 2 of `file_creator` needs). -/
def regFileChainB : Node → List String → Bool
  | _, [] => false
  | c, [a] => regFileAt c a
  | c, seg :: rest =>
      match childOf c seg with
      | some n => !n.isFile && regFileChainB n rest
      | none => false

/-- What one walk finding needs, in the post-first-run tree, for its
second processing to create nothing. -/
def entryOk (rb : Bool) (root : Node) : WEntry → Bool
  | WEntry.dirE rel =>
      if rb then regDirAt root (joinSeg rel) rel else regDirChainB root rel
  | WEntry.fileE rel =>
      if rb then regFileAt root (joinSeg rel) else regFileChainB root rel

theorem list_set_self {α : Type} :
    ∀ (l : List α) (i : Nat) (a : α), l.get? i = some a → l.set i a = l := by
  intro l
  induction l with
  | nil => intro i a h; cases h
  | cons x xs ih =>
    intro i a h
    match i with
    | 0 =>
      have h2 : some x = some a := h
      injection h2 with h3
      rw [List.set_cons_zero, h3]
    | j + 1 =>
      have h2 : xs.get? j = some a := h
      rw [List.set_cons_succ, ih j a h2]

theorem nodeAt_append : ∀ (xs ys : List String) (t : Node),
    nodeAt (xs ++ ys) t = Option.bind (nodeAt xs t) (nodeAt ys) := by
  intro xs
  induction xs with
  | nil => intro ys t; rfl
  | cons a rest ih =>
    intro ys t
    match t with
    | Node.file u p mo tp => rfl
    | Node.dir u p mo tp res als =>
      show (match lookupAlias res als a with
            | some c => nodeAt (rest ++ ys) c
            | none => none) =
          Option.bind (match lookupAlias res als a with
            | some c => nodeAt rest c
            | none => none) (nodeAt ys)
      cases hl : lookupAlias res als a with
      | none => rfl
      | some c => exact ih ys c

theorem nodeAt_singleton (a : String) (c : Node) :
    nodeAt [a] c = childOf c a := by
  match c with
  | Node.file u p mo tp => rfl
  | Node.dir u p mo tp res als =>
    show (match lookupAlias res als a with
          | some c2 => some c2
          | none => none) = lookupAlias res als a
    cases hl : lookupAlias res als a <;> rfl

theorem updateAt_id : ∀ (chain : List String) (f : Node → Node) (t : Node),
    (∀ n, nodeAt chain t = some n → f n = n) → updateAt chain f t = t := by
  intro chain
  induction chain with
  | nil =>
    intro f t h
    exact h t rfl
  | cons a rest ih =>
    intro f t h
    match t with
    | Node.file u p mo tp => rfl
    | Node.dir u p mo tp res als =>
      show (match als.find? (fun kv => kv.1 = a) with
            | some kv =>
                match res.get? kv.2 with
                | some c =>
                    Node.dir u p mo tp (res.set kv.2 (updateAt rest f c)) als
                | none => Node.dir u p mo tp res als
            | none => Node.dir u p mo tp res als)
          = Node.dir u p mo tp res als
      cases hf : als.find? (fun kv => kv.1 = a) with
      | none => rfl
      | some kv =>
        show (match res.get? kv.2 with
              | some c =>
                  Node.dir u p mo tp (res.set kv.2 (updateAt rest f c)) als
              | none => Node.dir u p mo tp res als)
            = Node.dir u p mo tp res als
        cases hg : res.get? kv.2 with
        | none => rfl
        | some c =>
          have hrec : updateAt rest f c = c := by
            apply ih
            intro n hn
            apply h
            show (match lookupAlias res als a with
                  | some c2 => nodeAt rest c2
                  | none => none) = some n
            have hl : lookupAlias res als a = some c := by
              unfold lookupAlias
              rw [hf]
              show res.get? kv.2 = some c
              exact hg
            rw [hl]
            exact hn
          show Node.dir u p mo tp (res.set kv.2 (updateAt rest f c)) als
              = Node.dir u p mo tp res als
          rw [hrec, list_set_self res kv.2 c hg]

theorem pyEqN_congr {a b : Node} (h1 : a.isFile = b.isFile)
    (h2 : a.path = b.path) (el : Node) : pyEqN el a = pyEqN el b := by
  unfold pyEqN
  rw [h1, h2]

theorem pyIndexOf_congr {a b : Node} (res : List Node)
    (h1 : a.isFile = b.isFile) (h2 : a.path = b.path) :
    pyIndexOf res a = pyIndexOf res b := by
  unfold pyIndexOf
  rw [funext (fun el => pyEqN_congr h1 h2 el)]

theorem any_of_find {α : Type} (p : α → Bool) (l : List α) (x : α)
    (h : l.find? p = some x) : l.any p = true := by
  rw [List.any_eq_true]
  exact ⟨x, List.mem_of_find?_eq_some h, List.find?_some h⟩

theorem truthy_of_find {u : Nat} {p : FPath} {mo : Nat} {tp : Bool}
    {res : List Node} {als : List (String × Nat)} {q : String × Nat → Bool}
    {kv : String × Nat} (h : als.find? q = some kv) :
    truthy (Node.dir u p mo tp res als) = true := by
  cases als with
  | nil => simp [List.find?_nil] at h
  | cons y ys => rfl

theorem truthy_of_childOf {c n : Node} {seg : String}
    (h : childOf c seg = some n) : truthy c = true := by
  match c with
  | Node.file u p mo tp => cases h
  | Node.dir u p mo tp res als =>
    have h2 : lookupAlias res als seg = some n := h
    unfold lookupAlias at h2
    cases hf : als.find? (fun kv => kv.1 = seg) with
    | none => rw [hf] at h2; cases h2
    | some kv => exact truthy_of_find hf

theorem dictSet_self (als : List (String × Nat)) (a : String)
    (kv : String × Nat)
    (hf : als.find? (fun e => e.1 = a) = some kv)
    (hall : als.all (fun e => !(e.1 == a) || (e.2 == kv.2)) = true) :
    dictSet als a kv.2 = als := by
  unfold dictSet
  rw [if_pos (any_of_find _ als kv hf)]
  have hmap : ∀ e ∈ als, (if e.1 = a then (e.1, kv.2) else e) = e := by
    intro e he
    by_cases hea : e.1 = a
    · rw [if_pos hea]
      have h2 := List.all_eq_true.mp hall e he
      simp only [hea, beq_self_eq_true, Bool.not_true, Bool.false_or,
        beq_iff_eq] at h2
      rw [← h2]
    · rw [if_neg hea]
  rw [List.map_congr_left hmap]
  exact List.map_id als

theorem dirObjectMake_fst (u : Nat) (absp : FPath) (mode : Nat) (tp : Bool)
    (dk : Disk) :
    ∃ mo2, (dirObjectMake u absp mode tp dk).1 = Node.dir u absp mo2 tp [] [] := by
  unfold dirObjectMake
  by_cases h : dk.pathExists absp = true
  · rw [if_pos h]
    exact ⟨_, rfl⟩
  · rw [if_neg h]
    exact ⟨mode, rfl⟩

theorem regDirAt_parts {c : Node} {a : String} {relp : FPath}
    (h : regDirAt c a relp = true) :
    ∃ u p mo tp res als kv n,
      c = Node.dir u p mo tp res als ∧
      als.find? (fun kv => kv.1 = a) = some kv ∧
      res.get? kv.2 = some n ∧
      n.isFile = false ∧
      pyIndexOf res n = some kv.2 ∧
      n.path = p ++ relp ∧
      als.all (fun e => !(e.1 == a) || (e.2 == kv.2)) = true := by
  match c with
  | Node.file u p mo tp =>
    have h2 : (false : Bool) = true := h
    cases h2
  | Node.dir u p mo tp res als =>
    have h2 : (match als.find? (fun kv => kv.1 = a) with
      | none => false
      | some kv =>
        match res.get? kv.2 with
        | none => false
        | some n =>
            !n.isFile && (pyIndexOf res n == some kv.2)
              && (n.path == p ++ relp)
              && als.all (fun e => !(e.1 == a) || (e.2 == kv.2))) = true := h
    cases hf : als.find? (fun kv => kv.1 = a) with
    | none => rw [hf] at h2; cases h2
    | some kv =>
      rw [hf] at h2
      have h3 : (match res.get? kv.2 with
        | none => false
        | some n =>
            !n.isFile && (pyIndexOf res n == some kv.2)
              && (n.path == p ++ relp)
              && als.all (fun e => !(e.1 == a) || (e.2 == kv.2))) = true := h2
      cases hg : res.get? kv.2 with
      | none => rw [hg] at h3; cases h3
      | some n =>
        rw [hg] at h3
        have h4 : (!n.isFile && (pyIndexOf res n == some kv.2)
            && (n.path == p ++ relp)
            && als.all (fun e => !(e.1 == a) || (e.2 == kv.2))) = true := h3
        rw [Bool.and_eq_true, Bool.and_eq_true, Bool.and_eq_true] at h4
        obtain ⟨⟨⟨hnf, hidx⟩, hpath⟩, hall⟩ := h4
        refine ⟨u, p, mo, tp, res, als, kv, n, rfl, hf, hg, ?_, eq_of_beq hidx,
          eq_of_beq hpath, hall⟩
        simpa using hnf

theorem regFileAt_parts {c : Node} {a : String} (h : regFileAt c a = true) :
    ∃ n, childOf c a = some n ∧ n.isFile = true := by
  unfold regFileAt at h
  cases hco : childOf c a with
  | none => rw [hco] at h; cases h
  | some n =>
    rw [hco] at h
    exact ⟨n, rfl, h⟩

theorem lookupAlias_of {res : List Node} {als : List (String × Nat)}
    {a : String} {kv : String × Nat} {n : Node}
    (hf : als.find? (fun kv => kv.1 = a) = some kv)
    (hg : res.get? kv.2 = some n) : lookupAlias res als a = some n := by
  unfold lookupAlias
  rw [hf]
  show res.get? kv.2 = some n
  exact hg

theorem truthy_of_isFile {n : Node} (h : n.isFile = true) :
    truthy n = true := by
  match n with
  | Node.file u p mo tp => rfl
  | Node.dir u p mo tp res als => simp [Node.isFile] at h

theorem resourceLookup_eq (m : MState) (a : String) {u : Nat} {p : FPath}
    {mo : Nat} {tp : Bool} {res : List Node} {als : List (String × Nat)}
    (hc : m.curNode = some (Node.dir u p mo tp res als)) :
    resourceLookup m a = lookupAlias res als a := by
  unfold resourceLookup
  rw [hc]

theorem mkfile_noop (m : MState) (c : Node) (al : String) (relp : FPath)
    (mode : Nat) (tp : Bool)
    (hc : m.curNode = some c) (hreg : regFileAt c al = true) :
    mkfile al relp mode tp m = m := by
  obtain ⟨n, hco, hnf⟩ := regFileAt_parts hreg
  match c with
  | Node.file u p mo t0 => cases hco
  | Node.dir u p mo t0 res als =>
    have hres : resourceLookup m al = some n := by
      rw [resourceLookup_eq m al hc]
      exact hco
    unfold mkfile
    rw [hres]
    show (if truthy n then m else mkfileCreate al relp mode tp m) = m
    rw [if_pos (truthy_of_isFile hnf)]

theorem dirLookup_of (m : MState) (a : String) (c n : Node)
    (hc : m.curNode = some c) (hco : childOf c a = some n)
    (hnf : n.isFile = false) : dirLookup m a = some n := by
  match c with
  | Node.file u p mo t0 => cases hco
  | Node.dir u p mo t0 res als =>
    have hres : resourceLookup m a = some n := by
      rw [resourceLookup_eq m a hc]
      exact hco
    unfold dirLookup
    rw [hres]
    show (if n.isFile then none else some n) = some n
    rw [hnf]
    rfl

theorem cd_eq (m : MState) (a : String) (n : Node)
    (hd : dirLookup m a = some n) :
    cd a m = { m with pred := m.cur, cur := m.cur ++ [a] } := by
  unfold cd
  rw [hd]

theorem up_of_concat (m : MState) (ch : List String) (s : String) (pn : Node)
    (hcur : m.cur = ch ++ [s]) (hp : nodeAt ch m.tree = some pn)
    (htr : truthy pn = true) :
    up m = { m with pred := m.cur, cur := ch } := by
  unfold up
  cases hcs : m.cur with
  | nil =>
    exfalso
    exact absurd (hcs.symm.trans hcur).symm (by simp)
  | cons y ys =>
    have hys : y :: ys = ch ++ [s] := hcs.symm.trans hcur
    have hdl : (y :: ys).dropLast = ch := by
      rw [hys]
      exact List.dropLast_concat
    show (match nodeAt (y :: ys).dropLast m.tree with
          | some p2 =>
              if truthy p2 then
                { m with pred := y :: ys, cur := (y :: ys).dropLast }
              else m
          | none => m) = { m with pred := y :: ys, cur := ch }
    rw [hdl, hp]
    show (if truthy pn then { m with pred := y :: ys, cur := ch } else m)
        = { m with pred := y :: ys, cur := ch }
    rw [if_pos htr]

theorem up_flex (m : MState)
    (hup : m.cur = [] ∨ ∃ ch2 s2 pn, m.cur = ch2 ++ [s2] ∧
      nodeAt ch2 m.tree = some pn ∧ truthy pn = true) :
    ∃ pr2, up m = { m with pred := pr2, cur := m.cur.dropLast } := by
  rcases hup with hc0 | ⟨ch2, s2, pn, hsh, hp, htr⟩
  · refine ⟨m.pred, ?_⟩
    unfold up
    rw [hc0]
    show m = { m with pred := m.pred, cur := ([] : List String) }
    rw [← hc0]
  · refine ⟨m.cur, ?_⟩
    rw [up_of_concat m ch2 s2 pn hsh hp htr, hsh, List.dropLast_concat]

theorem mkdirCreate_preserve (m : MState) (al : String) (relp : FPath)
    (mode : Nat) (tp : Bool)
    {u : Nat} {p : FPath} {mo : Nat} {t0 : Bool} {res : List Node}
    {als : List (String × Nat)} {kv : String × Nat} {n : Node}
    (hc : m.curNode = some (Node.dir u p mo t0 res als))
    (hf : als.find? (fun kv => kv.1 = al) = some kv)
    (hg : res.get? kv.2 = some n)
    (hnf : n.isFile = false)
    (hidx : pyIndexOf res n = some kv.2)
    (hpath : n.path = p ++ relp)
    (hall : als.all (fun e => !(e.1 == al) || (e.2 == kv.2)) = true) :
    ∃ dk2, mkdirCreate al relp mode tp m
      = { m with nextUid := m.nextUid + 1, disk := dk2 } := by
  have hcp : m.curPath = p := by
    unfold MState.curPath
    rw [hc]
    rfl
  obtain ⟨mo2, hdn⟩ := dirObjectMake_fst m.nextUid (m.curPath ++ relp) mode tp
    (prepare m.disk (m.curPath ++ relp))
  have hdnf : (dirObjectMake m.nextUid (m.curPath ++ relp) mode tp
      (prepare m.disk (m.curPath ++ relp))).1.isFile = false := by
    rw [hdn]
    rfl
  have hdnp : (dirObjectMake m.nextUid (m.curPath ++ relp) mode tp
      (prepare m.disk (m.curPath ++ relp))).1.path = p ++ relp := by
    rw [hdn]
    show m.curPath ++ relp = p ++ relp
    rw [hcp]
  have hidx2 : pyIndexOf res (dirObjectMake m.nextUid (m.curPath ++ relp) mode
      tp (prepare m.disk (m.curPath ++ relp))).1 = some kv.2 := by
    rw [pyIndexOf_congr res (hdnf.trans hnf.symm) (hdnp.trans hpath.symm), hidx]
  have happ : appendNode (Node.dir u p mo t0 res als)
      (dirObjectMake m.nextUid (m.curPath ++ relp) mode tp
        (prepare m.disk (m.curPath ++ relp))).1 = Node.dir u p mo t0 res als := by
    show (if (dirObjectMake m.nextUid (m.curPath ++ relp) mode tp
            (prepare m.disk (m.curPath ++ relp))).1.isFile
          || (!(dirObjectMake m.nextUid (m.curPath ++ relp) mode tp
              (prepare m.disk (m.curPath ++ relp))).1.isFile
            && (pyIndexOf res (dirObjectMake m.nextUid (m.curPath ++ relp)
                mode tp (prepare m.disk (m.curPath ++ relp))).1).isNone) then
          Node.dir u p mo t0
            (res ++ [(dirObjectMake m.nextUid (m.curPath ++ relp) mode tp
              (prepare m.disk (m.curPath ++ relp))).1]) als
        else Node.dir u p mo t0 res als) = Node.dir u p mo t0 res als
    rw [hdnf, hidx2]
    rfl
  have hbind : bindAlias (Node.dir u p mo t0 res als) al
      (dirObjectMake m.nextUid (m.curPath ++ relp) mode tp
        (prepare m.disk (m.curPath ++ relp))).1 = Node.dir u p mo t0 res als := by
    show (match pyIndexOf res (dirObjectMake m.nextUid (m.curPath ++ relp)
            mode tp (prepare m.disk (m.curPath ++ relp))).1 with
          | some i => Node.dir u p mo t0 res (dictSet als al i)
          | none => Node.dir u p mo t0 res als) = Node.dir u p mo t0 res als
    rw [hidx2]
    show Node.dir u p mo t0 res (dictSet als al kv.2) = Node.dir u p mo t0 res als
    rw [dictSet_self als al kv hf hall]
  have ht1 : updateAt m.cur (fun d => appendNode d
      (dirObjectMake m.nextUid (m.curPath ++ relp) mode tp
        (prepare m.disk (m.curPath ++ relp))).1) m.tree = m.tree := by
    apply updateAt_id
    intro n2 hn2
    have h0 : some (Node.dir u p mo t0 res als) = some n2 := hc.symm.trans hn2
    injection h0 with h2
    rw [← h2]
    exact happ
  have ht2 : updateAt m.cur (fun d => bindAlias d al
      (dirObjectMake m.nextUid (m.curPath ++ relp) mode tp
        (prepare m.disk (m.curPath ++ relp))).1) m.tree = m.tree := by
    apply updateAt_id
    intro n2 hn2
    have h0 : some (Node.dir u p mo t0 res als) = some n2 := hc.symm.trans hn2
    injection h0 with h2
    rw [← h2]
    exact hbind
  have hstep : mkdirCreate al relp mode tp m
      = (if m.temporary then
          ({ m with
            tree := updateAt m.cur (fun d => bindAlias d al
              (dirObjectMake m.nextUid (m.curPath ++ relp) mode tp
                (prepare m.disk (m.curPath ++ relp))).1)
              (updateAt m.cur (fun d => appendNode d
                (dirObjectMake m.nextUid (m.curPath ++ relp) mode tp
                  (prepare m.disk (m.curPath ++ relp))).1) m.tree),
            nextUid := m.nextUid + 1,
            disk := (dirObjectMake m.nextUid (m.curPath ++ relp) mode tp
              (prepare m.disk (m.curPath ++ relp))).2 } : MState)
        else
          { ({ m with
            tree := updateAt m.cur (fun d => bindAlias d al
              (dirObjectMake m.nextUid (m.curPath ++ relp) mode tp
                (prepare m.disk (m.curPath ++ relp))).1)
              (updateAt m.cur (fun d => appendNode d
                (dirObjectMake m.nextUid (m.curPath ++ relp) mode tp
                  (prepare m.disk (m.curPath ++ relp))).1) m.tree),
            nextUid := m.nextUid + 1,
            disk := (dirObjectMake m.nextUid (m.curPath ++ relp) mode tp
              (prepare m.disk (m.curPath ++ relp))).2 } : MState) with
            disk := saveSidecar
              { m with
                tree := updateAt m.cur (fun d => bindAlias d al
                  (dirObjectMake m.nextUid (m.curPath ++ relp) mode tp
                    (prepare m.disk (m.curPath ++ relp))).1)
                  (updateAt m.cur (fun d => appendNode d
                    (dirObjectMake m.nextUid (m.curPath ++ relp) mode tp
                      (prepare m.disk (m.curPath ++ relp))).1) m.tree),
                nextUid := m.nextUid + 1,
                disk := (dirObjectMake m.nextUid (m.curPath ++ relp) mode tp
                  (prepare m.disk (m.curPath ++ relp))).2 } }) := rfl
  rw [hstep, ht1, ht2]
  by_cases htmp : m.temporary = true
  · rw [if_pos htmp]
    exact ⟨_, rfl⟩
  · rw [if_neg htmp]
    exact ⟨_, rfl⟩

theorem mkdir_preserve (m : MState) (c : Node) (al : String) (relp : FPath)
    (mode : Nat) (tp : Bool)
    (hc : m.curNode = some c) (hreg : regDirAt c al relp = true) :
    ∃ u2 dk2, mkdir al relp mode tp m
      = { m with nextUid := u2, disk := dk2 } := by
  obtain ⟨u, p, mo, t0, res, als, kv, n, hceq, hf, hg, hnf, hidx, hpath, hall⟩ :=
    regDirAt_parts hreg
  subst hceq
  have hres : resourceLookup m al = some n := by
    rw [resourceLookup_eq m al hc]
    exact lookupAlias_of hf hg
  by_cases htr : truthy n = true
  · refine ⟨m.nextUid, m.disk, ?_⟩
    unfold mkdir
    rw [hres]
    show (if truthy n then m else mkdirCreate al relp mode tp m)
        = { m with nextUid := m.nextUid, disk := m.disk }
    rw [if_pos htr]
  · obtain ⟨dk2, hmkc⟩ :=
      mkdirCreate_preserve m al relp mode tp hc hf hg hnf hidx hpath hall
    refine ⟨m.nextUid + 1, dk2, ?_⟩
    unfold mkdir
    rw [hres]
    show (if truthy n then m else mkdirCreate al relp mode tp m)
        = { m with nextUid := m.nextUid + 1, disk := dk2 }
    rw [if_neg htr, hmkc]

theorem childOf_of_regDirAt {c : Node} {a : String} {relp : FPath}
    (h : regDirAt c a relp = true) :
    ∃ n, childOf c a = some n ∧ n.isFile = false := by
  obtain ⟨u, p, mo, t0, res, als, kv, n, hceq, hf, hg, hnf, _, _, _⟩ :=
    regDirAt_parts h
  subst hceq
  exact ⟨n, lookupAlias_of hf hg, hnf⟩

theorem dirCerator_preserve : ∀ (rel : List String) (m : MState) (c : Node),
    m.curNode = some c → regDirChainB c rel = true →
    ∃ u2 dk2 pr2, dirCerator rel m
      = { m with nextUid := u2, disk := dk2, pred := pr2 } := by
  intro rel
  induction rel with
  | nil =>
    intro m c hc hch
    exact ⟨m.nextUid, m.disk, m.pred, rfl⟩
  | cons seg rest ih =>
    intro m c hc hch
    have hch2 : (regDirAt c seg [seg] &&
        (match childOf c seg with
         | some n => regDirChainB n rest
         | none => false)) = true := hch
    rw [Bool.and_eq_true] at hch2
    obtain ⟨hreg, hrest⟩ := hch2
    obtain ⟨n, hco, hnfile⟩ := childOf_of_regDirAt hreg
    rw [hco] at hrest
    have hrest2 : regDirChainB n rest = true := hrest
    have htrc : truthy c = true := truthy_of_childOf hco
    obtain ⟨u1, dk1, hmk⟩ := mkdir_preserve m c seg [seg] 448 false hc hreg
    have hdl : dirLookup ({ m with nextUid := u1, disk := dk1 } : MState) seg
        = some n := dirLookup_of _ seg c n hc hco hnfile
    have hcd : cd seg ({ m with nextUid := u1, disk := dk1 } : MState)
        = { m with
            nextUid := u1, disk := dk1,
            pred := m.cur, cur := m.cur ++ [seg] } := cd_eq _ seg n hdl
    have hcur2 : ({ m with
        nextUid := u1, disk := dk1,
        pred := m.cur, cur := m.cur ++ [seg] } : MState).curNode = some n := by
      show nodeAt (m.cur ++ [seg]) m.tree = some n
      rw [nodeAt_append]
      rw [show nodeAt m.cur m.tree = some c from hc]
      show nodeAt [seg] c = some n
      rw [nodeAt_singleton]
      exact hco
    obtain ⟨u3, dk3, pr3, hrec⟩ := ih
      { m with
        nextUid := u1, disk := dk1,
        pred := m.cur, cur := m.cur ++ [seg] } n hcur2 hrest2
    obtain ⟨pr4, hup⟩ := up_flex
      { m with nextUid := u3, disk := dk3, pred := pr3, cur := m.cur ++ [seg] }
      (Or.inr ⟨m.cur, seg, c, rfl, hc, htrc⟩)
    refine ⟨u3, dk3, pr4, ?_⟩
    show up (dirCerator rest (cd seg (mkdir seg [seg] 448 false m))) = _
    rw [hmk, hcd]
    rw [show dirCerator rest
        ({ m with
          nextUid := u1, disk := dk1,
          pred := m.cur, cur := m.cur ++ [seg] } : MState)
      = { m with
          nextUid := u3, disk := dk3, pred := pr3,
          cur := m.cur ++ [seg] } from hrec]
    rw [hup]
    show ({ m with
        nextUid := u3, disk := dk3, pred := pr4,
        cur := (m.cur ++ [seg]).dropLast } : MState)
      = { m with nextUid := u3, disk := dk3, pred := pr4 }
    rw [List.dropLast_concat]

theorem fileCreator_preserve : ∀ (rel : List String) (m : MState) (c : Node),
    m.curNode = some c → regFileChainB c rel = true →
    (m.cur = [] ∨ ∃ ch2 s2 pn, m.cur = ch2 ++ [s2] ∧
      nodeAt ch2 m.tree = some pn ∧ truthy pn = true) →
    ∃ u2 dk2 pr2, fileCreator rel m
      = { m with
          nextUid := u2, disk := dk2, pred := pr2,
          cur := m.cur.dropLast } := by
  intro rel
  induction rel with
  | nil =>
    intro m c hc hch hup
    cases hch
  | cons seg rest ih =>
    intro m c hc hch hup
    match rest with
    | [] =>
      have hreg : regFileAt c seg = true := hch
      have hnoop : mkfile seg [seg] 384 false m = m :=
        mkfile_noop m c seg [seg] 384 false hc hreg
      obtain ⟨pr2, hupf⟩ := up_flex m hup
      refine ⟨m.nextUid, m.disk, pr2, ?_⟩
      show up (mkfile seg [seg] 384 false m) = _
      rw [hnoop, hupf]
    | b :: bs =>
      have hch2 : (match childOf c seg with
          | some n => !n.isFile && regFileChainB n (b :: bs)
          | none => false) = true := hch
      cases hco : childOf c seg with
      | none => rw [hco] at hch2; cases hch2
      | some n =>
        rw [hco] at hch2
        have hch3 : (!n.isFile && regFileChainB n (b :: bs)) = true := hch2
        rw [Bool.and_eq_true] at hch3
        obtain ⟨hnf0, hrest⟩ := hch3
        have hnfile : n.isFile = false := by simpa using hnf0
        have htrc : truthy c = true := truthy_of_childOf hco
        have hdl : dirLookup m seg = some n :=
          dirLookup_of m seg c n hc hco hnfile
        have hcd : cd seg m
            = { m with pred := m.cur, cur := m.cur ++ [seg] } :=
          cd_eq m seg n hdl
        have hcur2 : ({ m with
            pred := m.cur,
            cur := m.cur ++ [seg] } : MState).curNode = some n := by
          show nodeAt (m.cur ++ [seg]) m.tree = some n
          rw [nodeAt_append]
          rw [show nodeAt m.cur m.tree = some c from hc]
          show nodeAt [seg] c = some n
          rw [nodeAt_singleton]
          exact hco
        obtain ⟨u3, dk3, pr3, hrec⟩ := ih
          { m with pred := m.cur, cur := m.cur ++ [seg] } n hcur2 hrest
          (Or.inr ⟨m.cur, seg, c, rfl, hc, htrc⟩)
        obtain ⟨pr4, hupf⟩ := up_flex
          { m with
            nextUid := u3, disk := dk3, pred := pr3,
            cur := (m.cur ++ [seg]).dropLast } (by rw [List.dropLast_concat]; exact hup)
        refine ⟨u3, dk3, pr4, ?_⟩
        show up (fileCreator (b :: bs) (cd seg m)) = _
        rw [hcd]
        rw [show fileCreator (b :: bs)
            ({ m with pred := m.cur, cur := m.cur ++ [seg] } : MState)
          = { m with
              nextUid := u3, disk := dk3, pred := pr3,
              cur := (m.cur ++ [seg]).dropLast } from hrec]
        rw [hupf]
        show ({ m with
            nextUid := u3, disk := dk3, pred := pr4,
            cur := (m.cur ++ [seg]).dropLast.dropLast } : MState)
          = { m with
              nextUid := u3, disk := dk3, pred := pr4,
              cur := m.cur.dropLast }
        rw [List.dropLast_concat]

theorem snapStep_preserve (rb : Bool) (m : MState) (e : WEntry)
    (hcur : m.cur = [])
    (hok : entryOk rb m.tree e = true) :
    ∃ u2 dk2 pr2, snapStep rb m e
      = { m with nextUid := u2, disk := dk2, pred := pr2 } := by
  have hc : m.curNode = some m.tree := by
    show nodeAt m.cur m.tree = some m.tree
    rw [hcur]
    rfl
  match e with
  | WEntry.dirE rel =>
    have hok2 : (if rb then regDirAt m.tree (joinSeg rel) rel
        else regDirChainB m.tree rel) = true := hok
    by_cases hrb : rb = true
    · rw [if_pos hrb] at hok2
      obtain ⟨u2, dk2, hmk⟩ :=
        mkdir_preserve m m.tree (joinSeg rel) rel 448 false hc hok2
      refine ⟨u2, dk2, m.pred, ?_⟩
      show (if rb then mkdir (joinSeg rel) rel 448 false m
            else dirCerator rel m) = _
      rw [if_pos hrb, hmk]
    · rw [if_neg hrb] at hok2
      obtain ⟨u2, dk2, pr2, hdc⟩ := dirCerator_preserve rel m m.tree hc hok2
      refine ⟨u2, dk2, pr2, ?_⟩
      show (if rb then mkdir (joinSeg rel) rel 448 false m
            else dirCerator rel m) = _
      rw [if_neg hrb, hdc]
  | WEntry.fileE rel =>
    have hok2 : (if rb then regFileAt m.tree (joinSeg rel)
        else regFileChainB m.tree rel) = true := hok
    by_cases hrb : rb = true
    · rw [if_pos hrb] at hok2
      refine ⟨m.nextUid, m.disk, m.pred, ?_⟩
      show (if rb then mkfile (joinSeg rel) rel 384 false m
            else fileCreator rel m) = _
      rw [if_pos hrb, mkfile_noop m m.tree (joinSeg rel) rel 384 false hc hok2]
    · rw [if_neg hrb] at hok2
      obtain ⟨u2, dk2, pr2, hfc⟩ :=
        fileCreator_preserve rel m m.tree hc hok2 (Or.inl hcur)
      have hdl0 : m.cur.dropLast = m.cur := by
        rw [hcur]
        rfl
      rw [hdl0] at hfc
      refine ⟨u2, dk2, pr2, ?_⟩
      show (if rb then mkfile (joinSeg rel) rel 384 false m
            else fileCreator rel m) = _
      rw [if_neg hrb, hfc]

theorem snappyRun_preserve : ∀ (W : List WEntry) (rb : Bool) (m : MState),
    m.cur = [] → (∀ e ∈ W, entryOk rb m.tree e = true) →
    ∃ u2 dk2 pr2, snappyRun W rb m
      = { m with nextUid := u2, disk := dk2, pred := pr2 } := by
  intro W
  induction W with
  | nil =>
    intro rb m hc hall
    exact ⟨m.nextUid, m.disk, m.pred, rfl⟩
  | cons e W2 ih =>
    intro rb m hc hall
    obtain ⟨u1, dk1, p1, hstep⟩ :=
      snapStep_preserve rb m e hc (hall e (List.mem_cons_self e W2))
    have hall2 : ∀ e2 ∈ W2,
        entryOk rb ({ m with
          nextUid := u1, disk := dk1,
          pred := p1 } : MState).tree e2 = true :=
      fun e2 he2 => hall e2 (List.mem_cons_of_mem e he2)
    obtain ⟨u2, dk2, p2, hrest⟩ :=
      ih rb { m with nextUid := u1, disk := dk1, pred := p1 } hc hall2
    refine ⟨u2, dk2, p2, ?_⟩
    show snappyRun W2 rb (snapStep rb m e) = _
    rw [hstep]
    exact hrest

/-- C9: re-running `snappy` (either policy) over the same walk findings on
the unchanged tree is creation-free: the container tree — every alias
binding and every container's `resources` sequence — is exactly the one
the first run left (only the fresh-uid counter, the disk mirror and the
navigation `pred` slot may differ). -/
theorem c9_snappy_idempotent (W : List WEntry) (rb : Bool) (m0 : MState)
    (hcur : (snappyRun W rb m0).cur = [])
    (hreg : ∀ e ∈ W, entryOk rb (snappyRun W rb m0).tree e = true) :
    (snappyRun W rb (snappyRun W rb m0)).tree = (snappyRun W rb m0).tree := by
  obtain ⟨u2, dk2, pr2, h⟩ :=
    snappyRun_preserve W rb (snappyRun W rb m0) hcur hreg
  rw [h]

def c9Walk : List WEntry :=
  [WEntry.dirE ["d"], WEntry.fileE ["d", "x"], WEntry.fileE ["y"]]

def c9M0 : MState :=
  { tree := Node.dir 0 ["r"] 448 false [] [],
    cur := [],
    pred := [],
    nextUid := 1,
    rootPath := ["r"],
    temporary := true,
    disk := { ddirs := [{ path := ["r"], dmode := 448 }],
              dfiles := [], sidecars := [] } }

theorem c9_snappy_idempotent_witness :
    (snappyRun c9Walk false c9M0).cur = [] ∧
    (snappyRun c9Walk false (snappyRun c9Walk false c9M0)).tree
      = (snappyRun c9Walk false c9M0).tree := by
  refine ⟨rfl, ?_⟩
  exact c9_snappy_idempotent c9Walk false c9M0 rfl (by decide)

theorem c6_drift_detection_witness :
    saveHS 2 c6Disk "md5" c6Tree = Except.ok c6Disk1 ∧
    checkHS 2 (c6Disk1.setContent c6File.path 8) "md5" c6Tree []
      = Except.ok [c6File] := by
  refine ⟨rfl, ?_⟩
  refine c6_drift_detection 2 c6Disk c6Tree c6Disk1 c6File 7 8
    (by decide) (by decide) (by decide) rfl ?_ (by decide) (by decide)
  show c6File ∈ [c6File]
  exact List.mem_singleton.mpr rfl

end FsSpec
